import Mathlib

/-!
# Backtester: a shallow embedding of the ledger, the metrics, the strategy and the engine

The C++ class `Portfolio` is embedded as a record of its five data members and each
member function as a function on that record; the static functions of `Metrics` as pure
functions; `MovingAverageStrategy` and `BacktestingEngine::runBacktest` as functions that
pass the strategy object and the ledger along.

Conventions of the embedding:

* `double` is modelled by `ℚ`: arithmetic is exact, so rounding, infinities and
  NaN are outside the model.  Lean's division is total (`x / 0 = 0`); wherever
  the source divides, the divisor is visible in the definition.  The one function whose
  branch depends on a computed `double` being exactly `0.0`, `calculateSharpeRatio`,
  takes the rounding as a parameter: `id` for exact arithmetic, `roundBinary64` for
  IEEE 754 double precision.
* `int` is modelled by `ℤ`, with the 32-bit wrap-around `wrapInt` wherever the source's
  `int` arithmetic can leave the range (signed overflow is undefined behaviour in C++;
  the wrap is what the usual targets produce).  `size_t` arithmetic that can wrap is
  written modulo `2 ^ 64`.
* `std::unordered_map<std::string, V>` is modelled by `AList`, a finite map with
  unique keys; `m[k]` on a missing key yields the value-initialised `0`.
* `std::vector<double>` and `std::deque<double>` are modelled by `List ℚ`, `push_back`
  appends at the end.
* A member function that can throw returns an `Outcome`: the exception thrown
  (if any) together with the object state at the moment control leaves the
  function.
-/

namespace Backtester

/-- Symbol-keyed map, the model of `std::unordered_map<std::string, V>`. -/
abbrev SymMap (V : Type) : Type := AList (fun _ : String => V)

/-- The standard exception classes thrown in the program: `std::invalid_argument` and
`std::runtime_error` with their message, and `std::out_of_range`, which
`unordered_map::at` throws with an implementation-defined message. -/
inductive Exn where
  | invalid_argument (what : String)
  | runtime_error (what : String)
  | out_of_range
  deriving DecidableEq, Repr

deriving instance DecidableEq for Except

/-- Data members of `class Portfolio` (portfolio.h). -/
structure Portfolio where
  cash : ℚ
  positions : SymMap ℤ
  avgCostBasis : SymMap ℚ
  equityCurve : List ℚ
  returns : List ℚ

/-- The largest `int`. -/
def INT_MAX : ℤ := 2147483647

/-- The smallest `int`. -/
def INT_MIN : ℤ := -2147483648

/-- The `int` that an arithmetic result `x` is stored as: `x` itself within
`INT_MIN..INT_MAX`, and the two's-complement wrap-around outside. -/
def wrapInt (x : ℤ) : ℤ := (x + 2147483648) % 4294967296 - 2147483648

/-- What a call leaves behind: the exception thrown, if any, and the object state. -/
structure Outcome where
  thrown : Option Exn
  state : Portfolio

namespace Portfolio

/-- `Portfolio::Portfolio() : cash(0.0) {}`; the containers start empty. -/
def new : Portfolio :=
  { cash := 0, positions := ∅, avgCostBasis := ∅, equityCurve := [], returns := [] }

/-- `Portfolio::setCash`. -/
def setCash (self : Portfolio) (amount : ℚ) : Outcome :=
  if amount < 0 then
    ⟨some (Exn.invalid_argument "Cash amount cannot be negative."), self⟩
  else
    ⟨none, { self with cash := amount }⟩

/-- `Portfolio::buy`.  The share count is an `int`: the sum `positions[symbol] += quantity`
and the difference `positions[symbol] - quantity` are taken with `wrapInt`. -/
def buy (self : Portfolio) (symbol : String) (quantity : ℤ) (price : ℚ) : Outcome :=
  if quantity ≤ 0 ∨ price ≤ 0 then
    ⟨some (Exn.invalid_argument "Quantity and price must be positive."), self⟩
  else
    let cost : ℚ := (quantity : ℚ) * price
    if cost > self.cash then
      ⟨some (Exn.runtime_error "Insufficient cash to complete purchase."), self⟩
    else
      let cash1 := self.cash - cost
      -- positions[symbol] += quantity;  (an `int` sum)
      let held : ℤ := wrapInt ((self.positions.lookup symbol).getD 0 + quantity)
      let positions1 := self.positions.insert symbol held
      -- Update average cost basis
      let basis1 :=
        match self.avgCostBasis.lookup symbol with
        | none => self.avgCostBasis.insert symbol price
        | some old =>
          let totalCost : ℚ := old * ((wrapInt (held - quantity) : ℤ) : ℚ) + cost
          self.avgCostBasis.insert symbol (totalCost / (held : ℚ))
      ⟨none, { self with cash := cash1, positions := positions1, avgCostBasis := basis1 }⟩

/-- `Portfolio::sell`.  The difference `positions[symbol] -= quantity` is taken only when
`0 < quantity ≤ positions[symbol]`, so it lies between 0 and the count held and cannot
overflow. -/
def sell (self : Portfolio) (symbol : String) (quantity : ℤ) (price : ℚ) : Outcome :=
  if quantity ≤ 0 ∨ price ≤ 0 then
    ⟨some (Exn.invalid_argument "Quantity and price must be positive."), self⟩
  else
    match self.positions.lookup symbol with
    | none => ⟨some (Exn.runtime_error "Insufficient shares to sell."), self⟩
    | some owned =>
      if owned < quantity then
        ⟨some (Exn.runtime_error "Insufficient shares to sell."), self⟩
      else
        let revenue : ℚ := (quantity : ℚ) * price
        let cash1 := self.cash + revenue
        -- positions[symbol] -= quantity;
        let left : ℤ := owned - quantity
        -- If all shares are sold, remove the symbol from positions and avgCostBasis
        if left = 0 then
          ⟨none, { self with cash := cash1,
                             positions := self.positions.erase symbol,
                             avgCostBasis := self.avgCostBasis.erase symbol }⟩
        else
          ⟨none, { self with cash := cash1, positions := self.positions.insert symbol left }⟩

/-- `Portfolio::getNetWorth`: the loop over `positions` with the placeholder price `0.0`. -/
def getNetWorth (self : Portfolio) : ℚ :=
  self.positions.entries.foldl
    (fun netWorth e =>
      let currentPrice : ℚ := 0
      netWorth + (e.2 : ℚ) * currentPrice)
    self.cash

/-- `Portfolio::getCash`. -/
def getCash (self : Portfolio) : ℚ := self.cash

/-- `Portfolio::getPosition`. -/
def getPosition (self : Portfolio) (symbol : String) : ℤ :=
  match self.positions.lookup symbol with
  | none => 0
  | some q => q

/-- `Portfolio::getAvgCostBasis`: throws when the symbol has no cost basis. -/
def getAvgCostBasis (self : Portfolio) (symbol : String) : Except Exn ℚ :=
  match self.avgCostBasis.lookup symbol with
  | none => Except.error (Exn.runtime_error "No cost basis found for the symbol.")
  | some b => Except.ok b

/-- Loop body of `updateNetWorth`: one position's contribution to `totalValue`. -/
def markStep (currentPrices : SymMap ℚ) (totalValue : ℚ) (e : Sigma fun _ : String => ℤ) : ℚ :=
  match currentPrices.lookup e.1 with
  | some currentPrice => totalValue + (e.2 : ℚ) * currentPrice
  | none => totalValue

/-- `Portfolio::updateNetWorth`.  The function has no `throw`; the return is appended
whenever the curve has more than one point, with the previous point as divisor. -/
def updateNetWorth (self : Portfolio) (currentPrices : SymMap ℚ) : Outcome :=
  let totalValue : ℚ := self.positions.entries.foldl (markStep currentPrices) self.cash
  let equityCurve1 := self.equityCurve ++ [totalValue]
  if equityCurve1.length > 1 then
    let back := equityCurve1.getD (equityCurve1.length - 1) 0
    let prev := equityCurve1.getD (equityCurve1.length - 2) 0
    let lastReturn : ℚ := (back - prev) / prev
    ⟨none, { self with equityCurve := equityCurve1, returns := self.returns ++ [lastReturn] }⟩
  else
    ⟨none, { self with equityCurve := equityCurve1 }⟩

/-- `Portfolio::getEquityCurve`. -/
def getEquityCurve (self : Portfolio) : List ℚ := self.equityCurve

/-- `Portfolio::getReturns`. -/
def getReturns (self : Portfolio) : List ℚ := self.returns

end Portfolio

/-- A call of one of the state-changing public member functions of `Portfolio`. -/
inductive Call where
  | setCash (amount : ℚ)
  | buy (symbol : String) (quantity : ℤ) (price : ℚ)
  | sell (symbol : String) (quantity : ℤ) (price : ℚ)
  | updateNetWorth (currentPrices : SymMap ℚ)

/-- Perform one call on a ledger. -/
def Call.run (c : Call) (p : Portfolio) : Outcome :=
  match c with
  | Call.setCash a => p.setCash a
  | Call.buy s q pr => p.buy s q pr
  | Call.sell s q pr => p.sell s q pr
  | Call.updateNetWorth m => p.updateNetWorth m

/-- Perform a sequence of calls; a caller that catches a thrown exception carries on
with the object as the failed call left it. -/
def runCalls (p : Portfolio) (cs : List Call) : Portfolio :=
  cs.foldl (fun st c => (c.run st).state) p

/-- Ledger states that some sequence of calls produces from a fresh `Portfolio`. -/
def Reachable (p : Portfolio) : Prop :=
  ∃ cs : List Call, runCalls Portfolio.new cs = p

/-- Every held share count is strictly positive. -/
def SharesPositive (p : Portfolio) : Prop :=
  ∀ (s : String) (n : ℤ), p.positions.lookup s = some n → 0 < n

/-- The cost-basis map and the positions map have the same keys. -/
def KeysAgree (p : Portfolio) : Prop :=
  ∀ s : String, s ∈ p.avgCostBasis ↔ s ∈ p.positions

/-- Every held share count is a value of `int`. -/
def SharesInRange (p : Portfolio) : Prop :=
  ∀ (s : String) (n : ℤ), p.positions.lookup s = some n → INT_MIN ≤ n ∧ n ≤ INT_MAX

/-- The call does not overflow the `int` share count: a `buy` is rejected, or the count
it leaves for its symbol is at most `INT_MAX`.  The other calls never overflow. -/
def Call.fits (c : Call) (p : Portfolio) : Prop :=
  match c with
  | Call.buy s q pr => (p.buy s q pr).thrown ≠ none ∨ p.getPosition s + q ≤ INT_MAX
  | _ => True

/-- No call of the sequence, performed in turn from `p`, overflows a share count. -/
def runFits : Portfolio → List Call → Prop
  | _, [] => True
  | p, c :: cs => c.fits p ∧ runFits (c.run p).state cs

/-- Scenario A start: a fresh ledger funded with 100000. -/
def ledgerA : Portfolio := runCalls Portfolio.new [Call.setCash 100000]

/-- Scenario A after the purchase of 10 shares of `X` at 100. -/
def ledgerA1 : Portfolio := runCalls Portfolio.new [Call.setCash 100000, Call.buy "X" 10 100]

/-- A run mixing successful and rejected calls: fund, buy, an oversized sale (rejected),
a negative funding (rejected), a mark, a partial sale and a mark with no prices. -/
def ledgerMixed : Portfolio :=
  runCalls Portfolio.new
    [Call.setCash 1000, Call.buy "X" 10 10, Call.sell "X" 20 5, Call.setCash (-1),
     Call.updateNetWorth (AList.singleton "X" 12), Call.sell "X" 4 11,
     Call.updateNetWorth ∅]

/-- The calls that produce `ledgerMixed`. -/
def callsMixed : List Call :=
  [Call.setCash 1000, Call.buy "X" 10 10, Call.sell "X" 20 5, Call.setCash (-1),
   Call.updateNetWorth (AList.singleton "X" 12), Call.sell "X" 4 11,
   Call.updateNetWorth ∅]

/-- A ledger holding `INT_MAX` shares of `X` bought at 1, with cash left over. -/
def ledgerFull : Portfolio :=
  runCalls Portfolio.new [Call.setCash 4000000000, Call.buy "X" 2147483647 1]

/-- The calls of `ledgerFull` followed by the purchase of one more share of `X` at 1. -/
def callsOverflow : List Call :=
  [Call.setCash 4000000000, Call.buy "X" 2147483647 1, Call.buy "X" 1 1]

/-- A ledger marked while holding shares: fund with 1000, buy 10 `X` at 10, then mark
with `X` priced at 10. -/
def ledgerMarked : Portfolio :=
  runCalls Portfolio.new
    [Call.setCash 1000, Call.buy "X" 10 10, Call.updateNetWorth (AList.singleton "X" 10)]

/-- A ledger whose latest equity-curve entry is 0: a fresh ledger marked once (cash 0, no
holdings) and then funded with 100. -/
def ledgerZeroMark : Portfolio :=
  runCalls Portfolio.new [Call.updateNetWorth ∅, Call.setCash 100]

/-! ## `metrics.cpp`

The functions of `class Metrics` are static and pure: each returns a value or throws.
`std::sqrt` and `std::pow` are library functions with irrational values; the functions
that call them take them as a parameter. -/

/-- The integer nearest to `x`, the even one of the two when `x` lies halfway. -/
def roundHalfEven (x : ℚ) : ℤ :=
  let f : ℤ := Rat.floor x
  let r : ℚ := x - (f : ℚ)
  if r < 1 / 2 then f
  else if r > 1 / 2 then f + 1
  else if f % 2 = 0 then f else f + 1

/-- Number of binary digits of `n` (0 for 0); `fuel` bounds the recursion and is given
as `n` itself. -/
def bitLength : ℕ → ℕ → ℕ
  | 0, _ => 0
  | fuel + 1, n => if n = 0 then 0 else bitLength fuel (n / 2) + 1

/-- The power `2 ^ e` for an integer exponent. -/
def pow2 (e : ℤ) : ℚ :=
  if 0 ≤ e then ((2 ^ e.toNat : ℕ) : ℚ) else 1 / ((2 ^ (-e).toNat : ℕ) : ℚ)

/-- The exponent `e` with `2 ^ e ≤ |x| < 2 ^ (e + 1)`, for `x ≠ 0`. -/
def binaryExponent (x : ℚ) : ℤ :=
  let e0 : ℤ := (bitLength x.num.natAbs x.num.natAbs : ℤ) - (bitLength x.den x.den : ℤ)
  if pow2 e0 ≤ |x| then e0 else e0 - 1

/-- The `double` nearest to `x`: IEEE 754 binary64 round-to-nearest, ties to even, with
a 53-bit significand (the exponent range is not bounded: no overflow, no subnormals). -/
def roundBinary64 (x : ℚ) : ℚ :=
  if x = 0 then 0
  else
    let ulp : ℚ := pow2 (binaryExponent x - 52)
    (roundHalfEven (x / ulp) : ℚ) * ulp

/-- Bit-by-bit integer square root: with `r * r ≤ n < (r + 2 ^ b) * (r + 2 ^ b)`, settle
the `b` remaining bits of the root from the highest down. -/
def natSqrtLoop (n : ℕ) : ℕ → ℕ → ℕ
  | 0, r => r
  | b + 1, r => natSqrtLoop n b (if (r + 2 ^ b) * (r + 2 ^ b) ≤ n then r + 2 ^ b else r)

/-- The integer square root of `n`, rounded down. -/
def natSqrt (n : ℕ) : ℕ := natSqrtLoop n (bitLength n n / 2 + 1) 0

/-- The function `std::sqrt` on a `double` `x > 0`: the `double` nearest to the square root
of `x`.  The argument is scaled by a power of 4 to at least `2 ^ 108`, so that the integer
root `s` has 55 bits or more; the root is then `s` exactly, or lies strictly between `s`
and `s + 1` and rounds as `s + 1/2` does.  `sqrt 0` is 0; a negative argument (NaN in the
source) is outside the model and gives 0. -/
def sqrtBinary64 (x : ℚ) : ℚ :=
  if x ≤ 0 then 0
  else
    let k : ℤ := 54 - binaryExponent x / 2
    let scaled : ℚ := x * pow2 (2 * k)
    let s : ℕ := natSqrt (Rat.floor scaled).toNat
    if ((s * s : ℕ) : ℚ) = scaled then roundBinary64 ((s : ℚ) * pow2 (-k))
    else roundBinary64 (((s : ℚ) + 1 / 2) * pow2 (-k))

/-- The `double` written `0.1`. -/
def tenth : ℚ := roundBinary64 (1 / 10)

/-- A constant series: three returns of `0.1`. -/
def returnsTenth : List ℚ := [tenth, tenth, tenth]

namespace Metrics

/-- `std::accumulate(first, last, 0.0)`: the left-to-right sum. -/
def accumulate (xs : List ℚ) : ℚ := xs.foldl (fun acc x => acc + x) 0

/-- `Metrics::calculateSharpeRatio`.  The function compares a computed `double` with
`0.0`, so the rounding of `double` arithmetic is made explicit here: `fl` is applied to
the exact result of every arithmetic operation and conversion, in the order the source
performs them (`fl := id` is exact arithmetic, `fl := roundBinary64` is IEEE 754 double
precision), and `std::sqrt` is the parameter `sqrt`. -/
def calculateSharpeRatio (fl : ℚ → ℚ) (sqrt : ℚ → ℚ) (returns : List ℚ) (riskFreeRate : ℚ) :
    Except Exn ℚ :=
  if returns.isEmpty then
    Except.error (Exn.invalid_argument "Returns vector cannot be empty.")
  else
    -- std::accumulate(returns.begin(), returns.end(), 0.0) / returns.size()
    let size : ℚ := fl (returns.length : ℚ)
    let meanReturn : ℚ := fl (returns.foldl (fun acc x => fl (acc + x)) 0 / size)
    -- for (double r : returns) variance += (r - meanReturn) * (r - meanReturn);
    let variance0 : ℚ :=
      returns.foldl
        (fun variance r => fl (variance + fl (fl (r - meanReturn) * fl (r - meanReturn)))) 0
    -- variance /= returns.size();
    let variance : ℚ := fl (variance0 / size)
    let stdDev : ℚ := sqrt variance
    Except.ok (if stdDev = 0 then 0 else fl (fl (meanReturn - riskFreeRate) / stdDev))

/-- Loop body of `calculateMaxDrawdown` on the pair `(maxDrawdown, peak)`. -/
def drawdownStep (st : ℚ × ℚ) (value : ℚ) : ℚ × ℚ :=
  let peak : ℚ := if value > st.2 then value else st.2
  let drawdown : ℚ := (peak - value) / peak
  let maxDrawdown : ℚ := if drawdown > st.1 then drawdown else st.1
  (maxDrawdown, peak)

/-- `Metrics::calculateMaxDrawdown`. -/
def calculateMaxDrawdown (equityCurve : List ℚ) : Except Exn ℚ :=
  if equityCurve.isEmpty then
    Except.error (Exn.invalid_argument "Equity curve cannot be empty.")
  else
    Except.ok (equityCurve.foldl drawdownStep (0, equityCurve.getD 0 0)).1

/-- `Metrics::calculateTotalReturn`. -/
def calculateTotalReturn (equityCurve : List ℚ) : Except Exn ℚ :=
  if equityCurve.length < 2 then
    Except.error (Exn.invalid_argument "Equity curve must have at least two values.")
  else
    let back : ℚ := equityCurve.getD (equityCurve.length - 1) 0
    let front : ℚ := equityCurve.getD 0 0
    Except.ok ((back - front) / front)

/-- `Metrics::calculateAnnualizedReturn`, with `std::pow` as the parameter `pow`; an
exception of `calculateTotalReturn` propagates. -/
def calculateAnnualizedReturn (pow : ℚ → ℚ → ℚ) (equityCurve : List ℚ)
    (periodsPerYear : ℤ) : Except Exn ℚ :=
  match calculateTotalReturn equityCurve with
  | Except.error e => Except.error e
  | Except.ok totalReturn =>
    let years : ℚ := (equityCurve.length : ℚ) / (periodsPerYear : ℚ)
    Except.ok (pow (1 + totalReturn) (1 / years) - 1)

/-- `Metrics::calculateWinRate`. -/
def calculateWinRate (returns : List ℚ) : Except Exn ℚ :=
  if returns.isEmpty then
    Except.error (Exn.invalid_argument "Returns vector cannot be empty.")
  else
    let wins : ℤ := ((returns.countP (fun r => decide (r > 0)) : ℕ) : ℤ)
    Except.ok ((wins : ℚ) / (returns.length : ℚ))

/-- Loop body of `calculateProfitFactor` on the pair `(grossProfit, grossLoss)`. -/
def profitStep (st : ℚ × ℚ) (r : ℚ) : ℚ × ℚ :=
  if r > 0 then (st.1 + r, st.2) else (st.1, st.2 + |r|)

/-- `Metrics::calculateProfitFactor`. -/
def calculateProfitFactor (returns : List ℚ) : Except Exn ℚ :=
  if returns.isEmpty then
    Except.error (Exn.invalid_argument "Returns vector cannot be empty.")
  else
    let st := returns.foldl profitStep (0, 0)
    let grossProfit : ℚ := st.1
    let grossLoss : ℚ := st.2
    Except.ok (if grossLoss = 0 then 0 else grossProfit / grossLoss)

/-- `Metrics::calculateAverageTradeReturn`. -/
def calculateAverageTradeReturn (returns : List ℚ) : Except Exn ℚ :=
  if returns.isEmpty then
    Except.error (Exn.invalid_argument "Returns vector cannot be empty.")
  else
    Except.ok (accumulate returns / (returns.length : ℚ))

/-- The four `double` accumulators of `calculateExpectancy`. -/
structure Tally where
  wins : ℚ
  losses : ℚ
  winCount : ℚ
  lossCount : ℚ

/-- Loop body of `calculateExpectancy`: a return of exactly 0 is counted nowhere. -/
def tallyStep (t : Tally) (r : ℚ) : Tally :=
  if r > 0 then { t with wins := t.wins + r, winCount := t.winCount + 1 }
  else if r < 0 then { t with losses := t.losses + r, lossCount := t.lossCount + 1 }
  else t

/-- `Metrics::calculateExpectancy`. -/
def calculateExpectancy (returns : List ℚ) : Except Exn ℚ :=
  if returns.isEmpty then
    Except.error (Exn.invalid_argument "Returns vector cannot be empty.")
  else
    let t := returns.foldl tallyStep { wins := 0, losses := 0, winCount := 0, lossCount := 0 }
    let avgWin : ℚ := if t.winCount > 0 then t.wins / t.winCount else 0
    let avgLoss : ℚ := if t.lossCount > 0 then t.losses / t.lossCount else 0
    let winRate : ℚ := t.winCount / (returns.length : ℚ)
    let lossRate : ℚ := 1 - winRate
    Except.ok ((winRate * avgWin) + (lossRate * avgLoss))

/-- The modulus of `size_t` arithmetic (64-bit). -/
def sizeModulus : ℕ := 2 ^ 64

/-- Conversion of an `int` to `size_t`, as the comparison and the index arithmetic of
`calculateRollingReturns` perform it on `windowSize`. -/
def toSizeT (x : ℤ) : ℕ := (x % (sizeModulus : ℤ)).toNat

/-- How a call of `calculateRollingReturns` ends: with an exception, with a subscript
outside the vector (undefined behaviour of `operator[]`), or with its result. -/
inductive Rolling where
  | thrown (e : Exn)
  | outOfBounds (index : ℕ)
  | done (rollingReturns : List ℚ)
  deriving DecidableEq

/-- The `for` loop of `calculateRollingReturns` from index `i` with `remaining`
iterations to go; `w` is `windowSize` converted to `size_t`, and `i + windowSize - 1` is
computed modulo `sizeModulus`. -/
def rollingLoop (equityCurve : List ℚ) (w : ℕ) :
    (remaining : ℕ) → (i : ℕ) → (rollingReturns : List ℚ) → Rolling
  | 0, _, rollingReturns => Rolling.done rollingReturns
  | remaining + 1, i, rollingReturns =>
    match equityCurve[i]? with
    | none => Rolling.outOfBounds i
    | some start =>
      let j : ℕ := (i + w + (sizeModulus - 1)) % sizeModulus
      match equityCurve[j]? with
      | none => Rolling.outOfBounds j
      | some endValue =>
        rollingLoop equityCurve w remaining (i + 1)
          (rollingReturns ++ [(endValue - start) / start])

/-- `Metrics::calculateRollingReturns`.  The loop runs for `i = 0, …, size - windowSize`,
the bound being a `size_t` difference. -/
def calculateRollingReturns (equityCurve : List ℚ) (windowSize : ℤ) : Rolling :=
  let w : ℕ := toSizeT windowSize
  if equityCurve.length < w then
    Rolling.thrown (Exn.invalid_argument
      "Equity curve size must be greater than or equal to the window size.")
  else
    let bound : ℕ := (equityCurve.length + (sizeModulus - w)) % sizeModulus
    rollingLoop equityCurve w (bound + 1) 0 []

end Metrics

/-! ### Specification-side definitions for the drawdown claims -/

/-- Specification of the running peak: the maximum of `curve[0..j]`. -/
def runningPeak (curve : List ℚ) (j : ℕ) : ℚ :=
  (curve.take (j + 1)).foldl max (curve.getD 0 0)

/-- Specification of the drawdown at position `j`: `(P_j - curve[j]) / P_j`. -/
def drawdownAt (curve : List ℚ) (j : ℕ) : ℚ :=
  (runningPeak curve j - curve.getD j 0) / runningPeak curve j

/-- The drawdowns met along `l` when the peak before `l` is `peak`. -/
def drawdowns (peak : ℚ) : List ℚ → List ℚ
  | [] => []
  | v :: l => ((max peak v - v) / max peak v) :: drawdowns (max peak v) l

/-- A power function to instantiate `std::pow` with: the exact power when the exponent is
an integer; elsewhere, where the real power is irrational in general, it is left at 0. -/
def powOnIntegers (x y : ℚ) : ℚ := if y.den = 1 then x ^ y.num else 0

/-! ## `DataModule.h`, `strategies.h`, `strategyEngine.cpp`

A strategy holds a reference to the ledger it trades on; in the embedding the ledger is
passed to each callback and returned by it.  The lines a strategy writes to `std::cout`
are kept as a log. -/

/-- `struct TimeSeriesData` (the field `open` is written `open_`). -/
structure TimeSeriesData where
  open_ : ℚ
  high : ℚ
  low : ℚ
  close : ℚ
  volume : ℤ

/-- `TimeSeriesData::toMarketData`. -/
def TimeSeriesData.toMarketData (self : TimeSeriesData) : SymMap ℚ :=
  (((AList.singleton "Open" self.open_).insert "High" self.high).insert "Low" self.low).insert
    "Close" self.close

/-- `Portfolio::printPortfolio`: the state is not changed; the only effect kept is the
exception of `avgCostBasis.at(symbol)` for a held symbol without a cost basis. -/
def Portfolio.printPortfolio (self : Portfolio) : Option Exn :=
  if self.positions.keys.all (fun symbol => (self.avgCostBasis.lookup symbol).isSome) then none
  else some Exn.out_of_range

/-- The lines written to `std::cout` by `MovingAverageStrategy`. -/
inductive LogLine where
  | starting
  | movingAverages (timestamp : String) (shortMA longMA : ℚ)
  | buyExecuted (timestamp : String)
  | buySkipped (timestamp : String)
  | sellExecuted (timestamp : String)
  | sellSkipped (timestamp : String)
  | complete
  deriving DecidableEq

/-- What a strategy callback leaves behind: the exception thrown, if any, the lines
logged, the strategy object and the ledger. -/
structure Step (σ : Type) where
  thrown : Option Exn
  log : List LogLine
  self : σ
  portfolio : Portfolio

/-- The interface `class Strategy`: three virtual member functions on a strategy object
of state type `σ`. -/
structure Strategy (σ : Type) where
  onData : σ → Portfolio → String → TimeSeriesData → Step σ
  onStart : σ → Portfolio → Step σ
  onEnd : σ → Portfolio → Step σ

/-- Data members of `class MovingAverageStrategy`, the ledger reference apart. -/
structure MovingAverageStrategy where
  prices : List ℚ
  shortWindow : ℕ
  longWindow : ℕ
  deriving DecidableEq

/-- What `executeBuySignal` / `executeSellSignal` leave behind. -/
structure Traded where
  thrown : Option Exn
  log : List LogLine
  portfolio : Portfolio

namespace MovingAverageStrategy

/-- The constructor of `MovingAverageStrategy` (the windows are `size_t`). -/
def create (shortW longW : ℕ) : Except Exn MovingAverageStrategy :=
  if shortW ≤ 0 ∨ longW ≤ 0 ∨ shortW > longW then
    Except.error (Exn.invalid_argument "Invalid window sizes for moving averages")
  else
    Except.ok { prices := [], shortWindow := shortW, longWindow := longW }

/-- `calculateMovingAverage`: the mean of the last `windowSize` entries.  The source
needs `windowSize ≤ data.size()` for `data.end() - windowSize` to be valid; `onData`
calls it only then. -/
def calculateMovingAverage (data : List ℚ) (windowSize : ℕ) : ℚ :=
  Metrics.accumulate (data.drop (data.length - windowSize)) / (windowSize : ℚ)

/-- `executeBuySignal`. -/
def executeBuySignal (portfolio : Portfolio) (timestamp : String) (price : ℚ) : Traded :=
  let quantity : ℤ := 10
  if portfolio.getCash ≥ price * (quantity : ℚ) then
    let r := portfolio.buy "SPY" quantity price
    match r.thrown with
    | some e => ⟨some e, [], r.state⟩
    | none => ⟨none, [LogLine.buyExecuted timestamp], r.state⟩
  else
    ⟨none, [LogLine.buySkipped timestamp], portfolio⟩

/-- `executeSellSignal`. -/
def executeSellSignal (portfolio : Portfolio) (timestamp : String) (price : ℚ) : Traded :=
  let quantity : ℤ := 10
  if portfolio.getPosition "SPY" ≥ quantity then
    let r := portfolio.sell "SPY" quantity price
    match r.thrown with
    | some e => ⟨some e, [], r.state⟩
    | none => ⟨none, [LogLine.sellExecuted timestamp], r.state⟩
  else
    ⟨none, [LogLine.sellSkipped timestamp], portfolio⟩

/-- `MovingAverageStrategy::onData`. -/
def onData (self : MovingAverageStrategy) (portfolio : Portfolio) (timestamp : String)
    (data : TimeSeriesData) : Step MovingAverageStrategy :=
  let pushed : List ℚ := self.prices ++ [data.close]
  -- Ensure the deque only keeps the required number of prices
  let prices1 : List ℚ := if pushed.length > self.longWindow then pushed.tail else pushed
  let self1 : MovingAverageStrategy := { self with prices := prices1 }
  -- Perform calculations only when we have enough data
  if prices1.length ≥ self.longWindow then
    let shortMA : ℚ := calculateMovingAverage prices1 self.shortWindow
    let longMA : ℚ := calculateMovingAverage prices1 self.longWindow
    let line := LogLine.movingAverages timestamp shortMA longMA
    if shortMA > longMA then
      let r := executeBuySignal portfolio timestamp data.close
      ⟨r.thrown, line :: r.log, self1, r.portfolio⟩
    else if shortMA < longMA then
      let r := executeSellSignal portfolio timestamp data.close
      ⟨r.thrown, line :: r.log, self1, r.portfolio⟩
    else
      ⟨none, [line], self1, portfolio⟩
  else
    ⟨none, [], self1, portfolio⟩

/-- `MovingAverageStrategy::onStart`. -/
def onStart (self : MovingAverageStrategy) (portfolio : Portfolio) :
    Step MovingAverageStrategy :=
  ⟨none, [LogLine.starting], self, portfolio⟩

/-- `MovingAverageStrategy::onEnd`: logs and calls `portfolio.printPortfolio()`. -/
def onEnd (self : MovingAverageStrategy) (portfolio : Portfolio) :
    Step MovingAverageStrategy :=
  ⟨portfolio.printPortfolio, [LogLine.complete], self, portfolio⟩

/-- The overrides of `MovingAverageStrategy` as an implementation of `Strategy`. -/
def asStrategy : Strategy MovingAverageStrategy :=
  { onData := onData, onStart := onStart, onEnd := onEnd }

/-- The strategy object after a series of `onData` calls, each with the ledger of that
moment, its timestamp and its bar. -/
def fed (self : MovingAverageStrategy)
    (calls : List (Portfolio × String × TimeSeriesData)) : MovingAverageStrategy :=
  calls.foldl (fun s c => (onData s c.1 c.2.1 c.2.2).self) self

end MovingAverageStrategy

/-- The calls `runBacktest` makes on the strategy and the ledger. -/
inductive EngineCall where
  | onStart
  | onData (timestamp : String) (data : TimeSeriesData)
  | updateNetWorth (currentPrices : SymMap ℚ)
  | onEnd

deriving instance DecidableEq for TimeSeriesData

/-- Equality of price maps, decided on their lists of entries. -/
instance decEqPriceMap : DecidableEq (SymMap ℚ) :=
  fun a b => decidable_of_iff (a.entries = b.entries) AList.ext_iff.symm

deriving instance DecidableEq for EngineCall

/-- What `runBacktest` leaves behind: the exception that escaped, if any, the calls
made in order, the lines logged, the strategy object and the ledger. -/
structure Run (σ : Type) where
  thrown : Option Exn
  calls : List EngineCall
  log : List LogLine
  strategy : σ
  portfolio : Portfolio

/-- The `for` loop of `runBacktest` over the entries of the `std::map` in iteration
order; an exception leaves the loop at once. -/
def replay {σ : Type} (S : Strategy σ) :
    List (String × TimeSeriesData) → σ → Portfolio → Run σ
  | [], s, p => ⟨none, [], [], s, p⟩
  | (timestamp, timeSeriesData) :: rest, s, p =>
    let r := S.onData s p timestamp timeSeriesData
    match r.thrown with
    | some e => ⟨some e, [EngineCall.onData timestamp timeSeriesData], r.log, r.self, r.portfolio⟩
    | none =>
      let u := r.portfolio.updateNetWorth timeSeriesData.toMarketData
      match u.thrown with
      | some e =>
        ⟨some e, [EngineCall.onData timestamp timeSeriesData,
            EngineCall.updateNetWorth timeSeriesData.toMarketData], r.log, r.self, u.state⟩
      | none =>
        let t := replay S rest r.self u.state
        ⟨t.thrown,
          EngineCall.onData timestamp timeSeriesData ::
            EngineCall.updateNetWorth timeSeriesData.toMarketData :: t.calls,
          r.log ++ t.log, t.strategy, t.portfolio⟩

/-- `BacktestingEngine::runBacktest`; the data module is given by the entries of its
`timeSeriesData` map in iteration order. -/
def runBacktest {σ : Type} (S : Strategy σ) (series : List (String × TimeSeriesData))
    (s : σ) (p : Portfolio) : Run σ :=
  let a := S.onStart s p
  match a.thrown with
  | some e => ⟨some e, [EngineCall.onStart], a.log, a.self, a.portfolio⟩
  | none =>
    let b := replay S series a.self a.portfolio
    match b.thrown with
    | some e => ⟨some e, EngineCall.onStart :: b.calls, a.log ++ b.log, b.strategy, b.portfolio⟩
    | none =>
      let c := S.onEnd b.strategy b.portfolio
      ⟨c.thrown, EngineCall.onStart :: (b.calls ++ [EngineCall.onEnd]),
        a.log ++ b.log ++ c.log, c.self, c.portfolio⟩

/-- A strategy that leaves the equity curve and the returns series of the ledger alone
(it never marks to market itself). -/
def Strategy.KeepsCurves {σ : Type} (S : Strategy σ) : Prop :=
  (∀ s p, (S.onStart s p).portfolio.equityCurve = p.equityCurve ∧
      (S.onStart s p).portfolio.returns = p.returns) ∧
  (∀ s p ts d, (S.onData s p ts d).portfolio.equityCurve = p.equityCurve ∧
      (S.onData s p ts d).portfolio.returns = p.returns) ∧
  (∀ s p, (S.onEnd s p).portfolio.equityCurve = p.equityCurve ∧
      (S.onEnd s p).portfolio.returns = p.returns)

/-- A bar whose four prices are all `c`, with volume 0. -/
def flatBar (c : ℚ) : TimeSeriesData :=
  { open_ := c, high := c, low := c, close := c, volume := 0 }

/-- Scenario D: five bars with closes 10, 10, 10, 12, 8. -/
def seriesD : List (String × TimeSeriesData) :=
  [("t1", flatBar 10), ("t2", flatBar 10), ("t3", flatBar 10), ("t4", flatBar 12),
   ("t5", flatBar 8)]

/-- Scenario D's strategy: short window 2, long window 3, no prices yet. -/
def strategyD : MovingAverageStrategy := { prices := [], shortWindow := 2, longWindow := 3 }

/-- Specification of a moving average: the arithmetic mean of the last `m` of the closes
seen so far. -/
def meanOfLast (m : ℕ) (closes : List ℚ) : ℚ :=
  (closes.drop (closes.length - m)).sum / (m : ℚ)

/-- Scenario D's first three `onData` calls, each on the ledger funded with 100000. -/
def callsD : List (Portfolio × String × TimeSeriesData) :=
  [(ledgerA, "t1", flatBar 10), (ledgerA, "t2", flatBar 10), (ledgerA, "t3", flatBar 10)]

/-- A ledger whose only held symbol, if any, is `SPY`. -/
def HoldsOnlySPY (p : Portfolio) : Prop :=
  ∀ s : String, s ∈ p.positions → s = "SPY"

/-! ## Shared lemmas -/

/-- A property that holds of the fresh ledger and survives every call holds after any
sequence of calls. -/
theorem runCalls_preserves (I : Portfolio → Prop)
    (hstep : ∀ (p : Portfolio) (c : Call), I p → I (c.run p).state) :
    ∀ (cs : List Call) (p : Portfolio), I p → I (runCalls p cs) := by
  intro cs
  induction cs with
  | nil => intro p hp; exact hp
  | cons c cs ih =>
    intro p hp
    exact ih _ (hstep p c hp)

/-- Induction over reachable ledger states. -/
theorem reachable_induction (I : Portfolio → Prop) (h0 : I Portfolio.new)
    (hstep : ∀ (p : Portfolio) (c : Call), I p → I (c.run p).state) :
    ∀ p : Portfolio, Reachable p → I p := by
  rintro p ⟨cs, rfl⟩
  exact runCalls_preserves I hstep cs _ h0

theorem setCash_step (p : Portfolio) (a : ℚ) :
    (p.setCash a).state = p ∨ (0 ≤ a ∧ (p.setCash a).state = { p with cash := a }) := by
  unfold Portfolio.setCash
  split_ifs with h
  · exact Or.inl rfl
  · exact Or.inr ⟨not_lt.mp h, rfl⟩

theorem updateNetWorth_frame (p : Portfolio) (m : SymMap ℚ) :
    (p.updateNetWorth m).thrown = none ∧
    (p.updateNetWorth m).state.cash = p.cash ∧
    (p.updateNetWorth m).state.positions = p.positions ∧
    (p.updateNetWorth m).state.avgCostBasis = p.avgCostBasis := by
  unfold Portfolio.updateNetWorth
  simp only []
  split_ifs <;> exact ⟨rfl, rfl, rfl, rfl⟩

theorem getPosition_eq_getD (p : Portfolio) (s : String) :
    p.getPosition s = (p.positions.lookup s).getD 0 := by
  unfold Portfolio.getPosition
  cases p.positions.lookup s <;> rfl

theorem wrapInt_range (x : ℤ) : INT_MIN ≤ wrapInt x ∧ wrapInt x ≤ INT_MAX := by
  unfold wrapInt INT_MIN INT_MAX
  omega

theorem wrapInt_of_range (x : ℤ) (h1 : INT_MIN ≤ x) (h2 : x ≤ INT_MAX) : wrapInt x = x := by
  unfold INT_MIN at h1
  unfold INT_MAX at h2
  unfold wrapInt
  omega

theorem buy_state_of_thrown (p : Portfolio) (s : String) (q : ℤ) (pr : ℚ)
    (h : (p.buy s q pr).thrown ≠ none) : (p.buy s q pr).state = p := by
  by_cases h1 : q ≤ 0 ∨ pr ≤ 0
  · simp only [Portfolio.buy, if_pos h1]
  · by_cases h2 : (q : ℚ) * pr > p.cash
    · simp only [Portfolio.buy, if_neg h1, if_pos h2]
    · exfalso
      apply h
      simp only [Portfolio.buy, if_neg h1, if_neg h2]

theorem buy_sharesPositive (p : Portfolio) (s : String) (q : ℤ) (pr : ℚ)
    (h : SharesPositive p)
    (hfit : (p.buy s q pr).thrown ≠ none ∨ p.getPosition s + q ≤ INT_MAX) :
    SharesPositive (p.buy s q pr).state := by
  rcases hfit with ht | hfit
  · rw [buy_state_of_thrown p s q pr ht]; exact h
  · rw [getPosition_eq_getD] at hfit
    simp only [Portfolio.buy]
    split_ifs with h1 h2
    · exact h
    · exact h
    · intro s' n hn
      simp only [not_or, not_le] at h1
      have hq := h1.1
      by_cases hs : s' = s
      · subst hs
        simp only [AList.lookup_insert, Option.some.injEq] at hn
        subst hn
        cases hl : p.positions.lookup s' with
        | none =>
          rw [hl] at hfit
          simp only [Option.getD_none, zero_add] at hfit ⊢
          rw [wrapInt_of_range q (by unfold INT_MIN; omega) hfit]
          exact hq
        | some k =>
          have := h s' k hl
          rw [hl] at hfit
          simp only [Option.getD_some] at hfit ⊢
          rw [wrapInt_of_range (k + q) (by unfold INT_MIN; omega) hfit]
          omega
      · rw [AList.lookup_insert_ne hs] at hn
        exact h s' n hn

theorem buy_sharesInRange (p : Portfolio) (s : String) (q : ℤ) (pr : ℚ)
    (h : SharesInRange p) : SharesInRange (p.buy s q pr).state := by
  simp only [Portfolio.buy]
  split_ifs with h1 h2
  · exact h
  · exact h
  · intro s' n hn
    by_cases hs : s' = s
    · subst hs
      simp only [AList.lookup_insert, Option.some.injEq] at hn
      subst hn
      exact wrapInt_range _
    · rw [AList.lookup_insert_ne hs] at hn
      exact h s' n hn

theorem buy_keysAgree (p : Portfolio) (s : String) (q : ℤ) (pr : ℚ)
    (h : KeysAgree p) : KeysAgree (p.buy s q pr).state := by
  simp only [Portfolio.buy]
  split_ifs with h1 h2
  · exact h
  · exact h
  · intro s'
    cases hl : p.avgCostBasis.lookup s <;>
      simp only [hl, AList.mem_insert, h s']

theorem sell_sharesPositive (p : Portfolio) (s : String) (q : ℤ) (pr : ℚ)
    (h : SharesPositive p) : SharesPositive (p.sell s q pr).state := by
  simp only [Portfolio.sell]
  split_ifs with h1
  · exact h
  · cases hl : p.positions.lookup s with
    | none => exact h
    | some owned =>
      simp only []
      split_ifs with h2 h3
      · exact h
      · intro s' n hn
        by_cases hs : s' = s
        · subst hs
          simp [AList.lookup_erase] at hn
        · rw [AList.lookup_erase_ne hs] at hn
          exact h s' n hn
      · intro s' n hn
        by_cases hs : s' = s
        · subst hs
          simp only [AList.lookup_insert, Option.some.injEq] at hn
          omega
        · rw [AList.lookup_insert_ne hs] at hn
          exact h s' n hn

theorem sell_sharesInRange (p : Portfolio) (s : String) (q : ℤ) (pr : ℚ)
    (h : SharesInRange p) : SharesInRange (p.sell s q pr).state := by
  simp only [Portfolio.sell]
  split_ifs with h1
  · exact h
  · cases hl : p.positions.lookup s with
    | none => exact h
    | some owned =>
      simp only []
      have ho := h s owned hl
      unfold INT_MIN INT_MAX at ho
      split_ifs with h2 h3
      · exact h
      · intro s' n hn
        by_cases hs : s' = s
        · subst hs
          simp [AList.lookup_erase] at hn
        · rw [AList.lookup_erase_ne hs] at hn
          exact h s' n hn
      · intro s' n hn
        by_cases hs : s' = s
        · subst hs
          simp only [AList.lookup_insert, Option.some.injEq] at hn
          simp only [not_or, not_le] at h1
          unfold INT_MIN INT_MAX
          omega
        · rw [AList.lookup_insert_ne hs] at hn
          exact h s' n hn

theorem sell_keysAgree (p : Portfolio) (s : String) (q : ℤ) (pr : ℚ)
    (h : KeysAgree p) : KeysAgree (p.sell s q pr).state := by
  simp only [Portfolio.sell]
  split_ifs with h1
  · exact h
  · cases hl : p.positions.lookup s with
    | none => exact h
    | some owned =>
      simp only []
      have hmem : s ∈ p.positions := by
        rw [← AList.lookup_isSome, hl]; rfl
      split_ifs with h2 h3
      · exact h
      · intro s'
        simp only [AList.mem_erase, h s']
      · intro s'
        simp only [AList.mem_insert, h s']
        constructor
        · intro h'; exact Or.inr h'
        · rintro (rfl | h')
          · exact hmem
          · exact h'

theorem buy_curves (p : Portfolio) (s : String) (q : ℤ) (pr : ℚ) :
    (p.buy s q pr).state.equityCurve = p.equityCurve ∧
    (p.buy s q pr).state.returns = p.returns := by
  simp only [Portfolio.buy]
  split_ifs <;> exact ⟨rfl, rfl⟩

theorem sell_curves (p : Portfolio) (s : String) (q : ℤ) (pr : ℚ) :
    (p.sell s q pr).state.equityCurve = p.equityCurve ∧
    (p.sell s q pr).state.returns = p.returns := by
  simp only [Portfolio.sell]
  split_ifs with h1
  · exact ⟨rfl, rfl⟩
  · cases hl : p.positions.lookup s with
    | none => exact ⟨rfl, rfl⟩
    | some owned =>
      simp only []
      split_ifs <;> exact ⟨rfl, rfl⟩

theorem buy_cash_nonneg (p : Portfolio) (s : String) (q : ℤ) (pr : ℚ)
    (h : 0 ≤ p.cash) : 0 ≤ (p.buy s q pr).state.cash := by
  simp only [Portfolio.buy]
  split_ifs with h1 h2
  · exact h
  · exact h
  · simp only [gt_iff_lt, not_lt] at h2
    simpa using h2

theorem sell_cash_nonneg (p : Portfolio) (s : String) (q : ℤ) (pr : ℚ)
    (h : 0 ≤ p.cash) : 0 ≤ (p.sell s q pr).state.cash := by
  simp only [Portfolio.sell]
  split_ifs with h1
  · exact h
  · simp only [not_or, not_le] at h1
    have hq : (0 : ℚ) < (q : ℚ) := by exact_mod_cast h1.1
    have hrev : 0 ≤ (q : ℚ) * pr := le_of_lt (mul_pos hq h1.2)
    cases hl : p.positions.lookup s with
    | none => exact h
    | some owned =>
      simp only []
      split_ifs
      · exact h
      · exact add_nonneg h hrev
      · exact add_nonneg h hrev

theorem updateNetWorth_lengths (p : Portfolio) (m : SymMap ℚ)
    (h : p.returns.length = p.equityCurve.length - 1) :
    (p.updateNetWorth m).state.returns.length =
      (p.updateNetWorth m).state.equityCurve.length - 1 := by
  simp only [Portfolio.updateNetWorth]
  split_ifs with h1
  · simp only [List.length_append, List.length_singleton] at h1 ⊢
    omega
  · simp only [List.length_append, List.length_singleton] at h1 ⊢
    omega

theorem markStep_foldl (m : SymMap ℚ) (l : List (Sigma fun _ : String => ℤ)) (c : ℚ) :
    l.foldl (Portfolio.markStep m) c =
      c + (l.map (fun e => (e.2 : ℚ) * (m.lookup e.1).getD 0)).sum := by
  induction l generalizing c with
  | nil => simp
  | cons e l ih =>
    rw [List.foldl_cons, ih, List.map_cons, List.sum_cons]
    unfold Portfolio.markStep
    cases hl : m.lookup e.1 with
    | none => simp
    | some v => simp only [Option.getD_some]; ring

/-- With a non-empty curve `updateNetWorth` always appends one return, whatever the
previous entry is: the only test before the division is on the length. -/
theorem updateNetWorth_appends_return (p : Portfolio) (m : SymMap ℚ)
    (h : p.equityCurve ≠ []) :
    (p.updateNetWorth m).thrown = none ∧
    (p.updateNetWorth m).state.returns.length = p.returns.length + 1 := by
  have hlen : 0 < p.equityCurve.length := List.length_pos.mpr h
  simp only [Portfolio.updateNetWorth]
  split_ifs with h1
  · simp
  · simp only [List.length_append, List.length_singleton] at h1
    omega

/-- The placeholder price makes `getNetWorth` return the cash alone. -/
theorem getNetWorth_eq_cash (p : Portfolio) : p.getNetWorth = p.cash := by
  unfold Portfolio.getNetWorth
  generalize p.cash = c
  induction p.positions.entries generalizing c with
  | nil => rfl
  | cons e l ih => rw [List.foldl_cons, ih]; simp

theorem reachable_keysAgree (p : Portfolio) (hp : Reachable p) : KeysAgree p := by
  refine reachable_induction KeysAgree ?_ ?_ p hp
  · intro s; exact Iff.rfl
  · intro p c h
    cases c with
    | setCash a =>
      rcases setCash_step p a with h' | ⟨_, h'⟩
      · exact (congrArg KeysAgree h').mpr h
      · exact (congrArg KeysAgree h').mpr h
    | buy s q pr => exact buy_keysAgree p s q pr h
    | sell s q pr => exact sell_keysAgree p s q pr h
    | updateNetWorth m =>
      obtain ⟨_, _, hpos, hbasis⟩ := updateNetWorth_frame p m
      intro s
      show s ∈ (p.updateNetWorth m).state.avgCostBasis ↔ s ∈ (p.updateNetWorth m).state.positions
      rw [hpos, hbasis]; exact h s

theorem call_sharesPositive (c : Call) (p : Portfolio) (h : SharesPositive p)
    (hf : c.fits p) : SharesPositive (c.run p).state := by
  cases c with
  | setCash a =>
    rcases setCash_step p a with h' | ⟨_, h'⟩
    · exact (congrArg SharesPositive h').mpr h
    · exact (congrArg SharesPositive h').mpr h
  | buy s q pr => exact buy_sharesPositive p s q pr h hf
  | sell s q pr => exact sell_sharesPositive p s q pr h
  | updateNetWorth m =>
    obtain ⟨_, _, hpos, _⟩ := updateNetWorth_frame p m
    intro s n hn
    change (p.updateNetWorth m).state.positions.lookup s = some n at hn
    rw [hpos] at hn; exact h s n hn

theorem runFits_sharesPositive (cs : List Call) :
    ∀ p : Portfolio, SharesPositive p → runFits p cs → SharesPositive (runCalls p cs) := by
  induction cs with
  | nil => intro p h _; exact h
  | cons c cs ih =>
    intro p h hf
    exact ih (c.run p).state (call_sharesPositive c p h hf.1) hf.2

theorem reachable_sharesInRange (p : Portfolio) (hp : Reachable p) : SharesInRange p := by
  refine reachable_induction SharesInRange ?_ ?_ p hp
  · intro s n hn; simp [Portfolio.new] at hn
  · intro p c h
    cases c with
    | setCash a =>
      rcases setCash_step p a with h' | ⟨_, h'⟩
      · exact (congrArg SharesInRange h').mpr h
      · exact (congrArg SharesInRange h').mpr h
    | buy s q pr => exact buy_sharesInRange p s q pr h
    | sell s q pr => exact sell_sharesInRange p s q pr h
    | updateNetWorth m =>
      obtain ⟨_, _, hpos, _⟩ := updateNetWorth_frame p m
      intro s n hn
      change (p.updateNetWorth m).state.positions.lookup s = some n at hn
      rw [hpos] at hn; exact h s n hn

theorem getPosition_inRange (p : Portfolio) (h : SharesInRange p) (s : String) :
    INT_MIN ≤ p.getPosition s ∧ p.getPosition s ≤ INT_MAX := by
  rw [getPosition_eq_getD]
  cases hl : p.positions.lookup s with
  | none => simp only [Option.getD_none]; unfold INT_MIN INT_MAX; omega
  | some n => exact h s n hl

theorem buy_result (p : Portfolio) (s : String) (q : ℤ) (pr : ℚ)
    (hq : 0 < q) (hpr : 0 < pr) (hcash : (q : ℚ) * pr ≤ p.cash) :
    p.buy s q pr =
      ⟨none, { p with
        cash := p.cash - (q : ℚ) * pr
        positions := p.positions.insert s (wrapInt ((p.positions.lookup s).getD 0 + q))
        avgCostBasis :=
          match p.avgCostBasis.lookup s with
          | none => p.avgCostBasis.insert s pr
          | some old =>
            p.avgCostBasis.insert s
              ((old * ((wrapInt (wrapInt ((p.positions.lookup s).getD 0 + q) - q) : ℤ) : ℚ)
                  + (q : ℚ) * pr) /
                ((wrapInt ((p.positions.lookup s).getD 0 + q) : ℤ) : ℚ)) }⟩ := by
  have h1 : ¬ (q ≤ 0 ∨ pr ≤ 0) := by
    simp only [not_or, not_le]; exact ⟨hq, hpr⟩
  have h2 : ¬ ((q : ℚ) * pr > p.cash) := not_lt.mpr hcash
  simp only [Portfolio.buy, if_neg h1, if_neg h2]

theorem buy_result_fits (p : Portfolio) (s : String) (q : ℤ) (pr : ℚ)
    (hq : 0 < q) (hpr : 0 < pr) (hcash : (q : ℚ) * pr ≤ p.cash)
    (hlo : INT_MIN ≤ (p.positions.lookup s).getD 0)
    (hfit : (p.positions.lookup s).getD 0 + q ≤ INT_MAX) :
    p.buy s q pr =
      ⟨none, { p with
        cash := p.cash - (q : ℚ) * pr
        positions := p.positions.insert s ((p.positions.lookup s).getD 0 + q)
        avgCostBasis :=
          match p.avgCostBasis.lookup s with
          | none => p.avgCostBasis.insert s pr
          | some old =>
            p.avgCostBasis.insert s
              ((old * (((p.positions.lookup s).getD 0 + q - q : ℤ) : ℚ) + (q : ℚ) * pr) /
                (((p.positions.lookup s).getD 0 + q : ℤ) : ℚ)) }⟩ := by
  have h1 : wrapInt ((p.positions.lookup s).getD 0 + q) = (p.positions.lookup s).getD 0 + q :=
    wrapInt_of_range _ (by unfold INT_MIN at hlo ⊢; omega) hfit
  have h2 : wrapInt ((p.positions.lookup s).getD 0 + q - q)
      = (p.positions.lookup s).getD 0 + q - q :=
    wrapInt_of_range _ (by unfold INT_MIN at hlo ⊢; omega)
      (by unfold INT_MAX at hfit ⊢; omega)
  rw [buy_result p s q pr hq hpr hcash, h1, h2]

/-- Scenario A in numbers: buying 10 at 100 out of 100000 leaves cash 99000, position 10
and average cost 100; selling the 10 at 110 leaves cash 100100 and no position. -/
theorem scenarioA_values :
    ledgerA1.cash = 99000 ∧ ledgerA1.getPosition "X" = 10 ∧
    ledgerA1.avgCostBasis.lookup "X" = some 100 ∧
    (ledgerA1.sell "X" 10 110).state.cash = 100100 ∧
    (ledgerA1.sell "X" 10 110).state.positions.keys = [] :=
  ⟨by decide!, by decide!, by decide!, by decide!, by decide!⟩

/-- `sell` throws exactly when the order is invalid or the position is too small. -/
theorem rejected_sell_iff (p : Portfolio) (s : String) (q : ℤ) (pr : ℚ) :
    (p.sell s q pr).thrown ≠ none ↔ ((q ≤ 0 ∨ pr ≤ 0) ∨ p.getPosition s < q) := by
  by_cases h1 : q ≤ 0 ∨ pr ≤ 0
  · simp only [Portfolio.sell, if_pos h1]
    simp [h1]
  · simp only [Portfolio.sell, if_neg h1, Portfolio.getPosition]
    have h1' := h1
    simp only [not_or, not_le] at h1'
    cases hl : p.positions.lookup s with
    | none =>
      simp only [ne_eq, reduceCtorEq, not_false_eq_true, true_iff]
      exact Or.inr h1'.1
    | some owned =>
      simp only []
      split_ifs with h2 h3
      · simp [h2]
      · simp [h2, h1]
      · simp [h2, h1]

/-! ## Claims about `Portfolio` -/

/-- C1, as amended: on every ledger `p` that a sequence `cs` of calls without overflow of
a share count produces from a fresh one, a buy of `q > 0` shares at `pr > 0` whose cost
`q * pr` does not exceed the cash and whose new count, the position plus `q`, does not
exceed `INT_MAX`, throws nothing; afterwards the cash is the old cash minus `q * pr`, the
position of `s` is the old position (0 when `s` was not held) plus `q`, and the average
cost basis of `s` is `(oldBasis * oldQty + q * pr) / (oldQty + q)`, old basis and
quantity being 0 when `s` was not held. -/
theorem buy_succeeds_and_blends (cs : List Call) (p : Portfolio)
    (hfits : runFits Portfolio.new cs) (hcs : runCalls Portfolio.new cs = p)
    (s : String) (q : ℤ) (pr : ℚ) (hq : 0 < q) (hpr : 0 < pr)
    (hcash : (q : ℚ) * pr ≤ p.cash) (hfit : p.getPosition s + q ≤ INT_MAX) :
    (p.buy s q pr).thrown = none ∧
    (p.buy s q pr).state.cash = p.cash - (q : ℚ) * pr ∧
    (p.buy s q pr).state.getPosition s = p.getPosition s + q ∧
    (p.buy s q pr).state.getAvgCostBasis s =
      Except.ok (((p.avgCostBasis.lookup s).getD 0 * (p.getPosition s : ℚ) + (q : ℚ) * pr) /
        ((p.getPosition s : ℚ) + (q : ℚ))) := by
  have hp : Reachable p := ⟨cs, hcs⟩
  have hheld : 0 ≤ p.getPosition s := by
    have hpos : SharesPositive p := by
      rw [← hcs]
      refine runFits_sharesPositive cs Portfolio.new ?_ hfits
      intro s n hn
      simp [Portfolio.new] at hn
    rw [getPosition_eq_getD]
    cases hl : p.positions.lookup s with
    | none => exact le_refl 0
    | some n => exact (hpos s n hl).le
  have hlo : INT_MIN ≤ (p.positions.lookup s).getD 0 := by
    rw [← getPosition_eq_getD]; unfold INT_MIN; omega
  rw [buy_result_fits p s q pr hq hpr hcash hlo (by rw [← getPosition_eq_getD]; exact hfit)]
  refine ⟨rfl, rfl, ?_, ?_⟩
  · simp only [Portfolio.getPosition, AList.lookup_insert]
    cases p.positions.lookup s <;> simp
  · have hq0 : (q : ℚ) ≠ 0 := by exact_mod_cast hq.ne.symm
    rw [getPosition_eq_getD]
    cases hb : p.avgCostBasis.lookup s with
    | none =>
      have hnot : s ∉ p.positions := by
        rw [← reachable_keysAgree p hp s, ← AList.lookup_eq_none]; exact hb
      rw [← AList.lookup_eq_none] at hnot
      simp only [Portfolio.getAvgCostBasis, AList.lookup_insert, hnot, Option.getD_none]
      congr 1
      field_simp
    | some old =>
      simp only [Portfolio.getAvgCostBasis, AList.lookup_insert, Option.getD_some]
      congr 1
      push_cast
      ring_nf

/-- Scenario A, first half: on the ledger funded with 100000, `buy("X", 10, 100)` meets
the hypotheses of C1. -/
theorem buy_succeeds_and_blends_witness :
    runFits Portfolio.new [Call.setCash 100000] ∧
    runCalls Portfolio.new [Call.setCash 100000] = ledgerA ∧
    (0 : ℤ) < 10 ∧ (0 : ℚ) < 100 ∧ ((10 : ℤ) : ℚ) * 100 ≤ ledgerA.cash ∧
    ledgerA.getPosition "X" + 10 ≤ INT_MAX ∧
    ((ledgerA.buy "X" 10 100).thrown = none ∧
     (ledgerA.buy "X" 10 100).state.cash = ledgerA.cash - ((10 : ℤ) : ℚ) * 100 ∧
     (ledgerA.buy "X" 10 100).state.getPosition "X" = ledgerA.getPosition "X" + 10 ∧
     (ledgerA.buy "X" 10 100).state.getAvgCostBasis "X" =
        Except.ok
          (((ledgerA.avgCostBasis.lookup "X").getD 0 * (ledgerA.getPosition "X" : ℚ) +
            ((10 : ℤ) : ℚ) * 100) / ((ledgerA.getPosition "X" : ℚ) + ((10 : ℤ) : ℚ)))) :=
  ⟨⟨trivial, trivial⟩, rfl, by decide, by norm_num, by decide!, by decide!,
   buy_succeeds_and_blends [Call.setCash 100000] ledgerA ⟨trivial, trivial⟩ rfl "X" 10 100
     (by decide) (by norm_num) (by decide!) (by decide!)⟩

/-- C1, counterexample to the claim as worded: the ledger that holds `INT_MAX` shares of
`X` bought at 1 is reachable and has cash left, so `buy("X", 1, 1)` meets every condition
of the claim and throws nothing; but the `int` count wraps: afterwards the position of `X`
is `INT_MIN`, not the old position plus 1, and the average cost basis is
`(1 * 2147483647 + 1) / (-2147483648) = -1`, not the blend
`(1 * 2147483647 + 1) / (2147483647 + 1) = 1`. -/
theorem buy_wraps_past_int_max :
    Reachable ledgerFull ∧ (0 : ℤ) < 1 ∧ (0 : ℚ) < 1 ∧ ((1 : ℤ) : ℚ) * 1 ≤ ledgerFull.cash ∧
    ledgerFull.getPosition "X" = 2147483647 ∧
    ledgerFull.avgCostBasis.lookup "X" = some 1 ∧
    (ledgerFull.buy "X" 1 1).thrown = none ∧
    (ledgerFull.buy "X" 1 1).state.getPosition "X" = -2147483648 ∧
    (ledgerFull.buy "X" 1 1).state.getPosition "X" ≠ ledgerFull.getPosition "X" + 1 ∧
    (ledgerFull.buy "X" 1 1).state.getAvgCostBasis "X" = Except.ok (-1) ∧
    (ledgerFull.buy "X" 1 1).state.getAvgCostBasis "X" ≠
      Except.ok
        (((ledgerFull.avgCostBasis.lookup "X").getD 0 * (ledgerFull.getPosition "X" : ℚ) +
          ((1 : ℤ) : ℚ) * 1) / ((ledgerFull.getPosition "X" : ℚ) + ((1 : ℤ) : ℚ))) :=
  ⟨⟨_, rfl⟩, by decide, by norm_num, by decide!, by decide!, by decide!, by decide!,
   by decide!, by decide!, by decide!, by decide!⟩

/-- C2: on every ledger, a sale of `q > 0` shares at `pr > 0` with `q` not above the held
quantity throws nothing; afterwards the cash is the old cash plus `q * pr` and the
position of `s` is the old position minus `q`; when that is 0, `s` is a key of neither
the positions map nor the cost-basis map, so `getPosition` gives 0 and `getAvgCostBasis`
throws. -/
theorem sell_succeeds_and_clears (p : Portfolio) (s : String) (q : ℤ) (pr : ℚ)
    (hq : 0 < q) (hpr : 0 < pr) (hheld : q ≤ p.getPosition s) :
    (p.sell s q pr).thrown = none ∧
    (p.sell s q pr).state.cash = p.cash + (q : ℚ) * pr ∧
    (p.sell s q pr).state.getPosition s = p.getPosition s - q ∧
    (p.getPosition s - q = 0 →
      s ∉ (p.sell s q pr).state.positions ∧ s ∉ (p.sell s q pr).state.avgCostBasis ∧
      (p.sell s q pr).state.getPosition s = 0 ∧
      ∃ e, (p.sell s q pr).state.getAvgCostBasis s = Except.error e) := by
  have h1 : ¬ (q ≤ 0 ∨ pr ≤ 0) := by
    simp only [not_or, not_le]; exact ⟨hq, hpr⟩
  cases hl : p.positions.lookup s with
  | none =>
    simp only [Portfolio.getPosition, hl] at hheld
    omega
  | some owned =>
    have hown : p.getPosition s = owned := by simp only [Portfolio.getPosition, hl]
    rw [hown] at hheld ⊢
    have h2 : ¬ owned < q := not_lt.mpr hheld
    simp only [Portfolio.sell, if_neg h1, hl, if_neg h2]
    split_ifs with h3
    · refine ⟨rfl, rfl, ?_, fun _ => ⟨?_, ?_, ?_, ?_⟩⟩
      · simp only [Portfolio.getPosition, AList.lookup_erase, h3]
      · simp only [AList.mem_erase, ne_eq, not_true_eq_false, false_and, not_false_eq_true]
      · simp only [AList.mem_erase, ne_eq, not_true_eq_false, false_and, not_false_eq_true]
      · simp only [Portfolio.getPosition, AList.lookup_erase]
      · refine ⟨Exn.runtime_error "No cost basis found for the symbol.", ?_⟩
        simp only [Portfolio.getAvgCostBasis, AList.lookup_erase]
    · refine ⟨rfl, rfl, ?_, fun h0 => absurd h0 h3⟩
      simp only [Portfolio.getPosition, AList.lookup_insert]

/-- Scenario A, second half: on the ledger holding 10 shares of `X`, `sell("X", 10, 110)`
meets the hypotheses of C2 and liquidates the position. -/
theorem sell_succeeds_and_clears_witness :
    (0 : ℤ) < 10 ∧ (0 : ℚ) < 110 ∧ (10 : ℤ) ≤ ledgerA1.getPosition "X" ∧
    ((ledgerA1.sell "X" 10 110).thrown = none ∧
     (ledgerA1.sell "X" 10 110).state.cash = ledgerA1.cash + ((10 : ℤ) : ℚ) * 110 ∧
     (ledgerA1.sell "X" 10 110).state.getPosition "X" = ledgerA1.getPosition "X" - 10 ∧
     (ledgerA1.getPosition "X" - 10 = 0 →
       "X" ∉ (ledgerA1.sell "X" 10 110).state.positions ∧
       "X" ∉ (ledgerA1.sell "X" 10 110).state.avgCostBasis ∧
       (ledgerA1.sell "X" 10 110).state.getPosition "X" = 0 ∧
       ∃ e, (ledgerA1.sell "X" 10 110).state.getAvgCostBasis "X" = Except.error e)) :=
  ⟨by decide, by norm_num, by decide!,
   sell_succeeds_and_clears ledgerA1 "X" 10 110 (by decide) (by norm_num) (by decide!)⟩

/-- C3: `buy` throws exactly when `q ≤ 0` or `pr ≤ 0` (`invalid_argument`, the spec's
InvalidOrder) or else `q * pr > cash` (`runtime_error` "Insufficient cash", the spec's
InsufficientFunds); `sell` throws exactly when `q ≤ 0` or `pr ≤ 0` (`invalid_argument`) or
else the held quantity is below `q` (`runtime_error` "Insufficient shares", the spec's
InsufficientPosition); and a call that throws leaves the whole ledger as it was. -/
theorem rejected_orders_leave_ledger (p : Portfolio) (s : String) (q : ℤ) (pr : ℚ) :
    ((q ≤ 0 ∨ pr ≤ 0) → (p.buy s q pr).thrown =
        some (Exn.invalid_argument "Quantity and price must be positive.")) ∧
    (¬ (q ≤ 0 ∨ pr ≤ 0) → (q : ℚ) * pr > p.cash → (p.buy s q pr).thrown =
        some (Exn.runtime_error "Insufficient cash to complete purchase.")) ∧
    ((p.buy s q pr).thrown ≠ none ↔ ((q ≤ 0 ∨ pr ≤ 0) ∨ (q : ℚ) * pr > p.cash)) ∧
    ((p.buy s q pr).thrown ≠ none → (p.buy s q pr).state = p) ∧
    ((q ≤ 0 ∨ pr ≤ 0) → (p.sell s q pr).thrown =
        some (Exn.invalid_argument "Quantity and price must be positive.")) ∧
    (¬ (q ≤ 0 ∨ pr ≤ 0) → p.getPosition s < q → (p.sell s q pr).thrown =
        some (Exn.runtime_error "Insufficient shares to sell.")) ∧
    ((p.sell s q pr).thrown ≠ none ↔ ((q ≤ 0 ∨ pr ≤ 0) ∨ p.getPosition s < q)) ∧
    ((p.sell s q pr).thrown ≠ none → (p.sell s q pr).state = p) := by
  refine ⟨?_, ?_, ?_, ?_, ?_, ?_, ?_, ?_⟩
  · intro h; simp only [Portfolio.buy, if_pos h]
  · intro h1 h2; simp only [Portfolio.buy, if_neg h1, if_pos h2]
  · simp only [Portfolio.buy]
    split_ifs with h1 h2
    · simp [h1]
    · simp [h2]
    · simp [h1, h2]
  · simp only [Portfolio.buy]
    split_ifs with h1 h2
    · intro _; rfl
    · intro _; rfl
    · intro h; exact absurd rfl h
  · intro h; simp only [Portfolio.sell, if_pos h]
  · intro h1 h2
    simp only [Portfolio.sell, if_neg h1]
    cases hl : p.positions.lookup s with
    | none => rfl
    | some owned =>
      simp only [Portfolio.getPosition, hl] at h2
      simp only [if_pos h2]
  · by_cases h1 : q ≤ 0 ∨ pr ≤ 0
    · simp only [Portfolio.sell, if_pos h1]
      simp [h1]
    · simp only [Portfolio.sell, if_neg h1, Portfolio.getPosition]
      simp only [not_or, not_le] at h1
      cases hl : p.positions.lookup s with
      | none =>
        simp only [ne_eq, reduceCtorEq, not_false_eq_true, true_iff]
        exact Or.inr h1.1
      | some owned =>
        simp only []
        split_ifs with h2 h3
        · simp [h2]
        · have : ¬ (q ≤ 0 ∨ pr ≤ 0) := by simp only [not_or, not_le]; exact h1
          simp [h2, this]
        · have : ¬ (q ≤ 0 ∨ pr ≤ 0) := by simp only [not_or, not_le]; exact h1
          simp [h2, this]
  · simp only [Portfolio.sell]
    split_ifs with h1
    · intro _; rfl
    · cases hl : p.positions.lookup s with
      | none => intro _; rfl
      | some owned =>
        simp only []
        split_ifs
        · intro _; rfl
        · intro h; exact absurd rfl h
        · intro h; exact absurd rfl h

/-- C4: in every ledger state reached from a fresh `Portfolio` by `setCash`, `buy`,
`sell` and `updateNetWorth` calls, failed ones included, the cash is not negative. -/
theorem cash_never_negative (p : Portfolio) (hp : Reachable p) : 0 ≤ p.cash := by
  refine reachable_induction (fun p => 0 ≤ p.cash) ?_ ?_ p hp
  · exact le_refl _
  · intro p c h
    cases c with
    | setCash a =>
      rcases setCash_step p a with h' | ⟨ha, h'⟩
      · show 0 ≤ (p.setCash a).state.cash
        rw [h']; exact h
      · show 0 ≤ (p.setCash a).state.cash
        rw [h']; exact ha
    | buy s q pr => exact buy_cash_nonneg p s q pr h
    | sell s q pr => exact sell_cash_nonneg p s q pr h
    | updateNetWorth m =>
      show 0 ≤ (p.updateNetWorth m).state.cash
      rw [(updateNetWorth_frame p m).2.1]; exact h

/-- The mixed run is reachable, and its cash is not negative. -/
theorem cash_never_negative_witness : Reachable ledgerMixed ∧ 0 ≤ ledgerMixed.cash :=
  ⟨⟨_, rfl⟩, cash_never_negative ledgerMixed ⟨_, rfl⟩⟩

/-- C5, as amended: in every reachable ledger state a symbol is a key of the cost-basis
map exactly when it is a key of the positions map, and every held share count is a value
of `int`; when the state is produced by a sequence of calls none of which overflows a
share count (each `buy` is rejected or leaves at most `INT_MAX` shares of its symbol),
each symbol in the positions map has a share count strictly above 0. -/
theorem held_positive_and_bases_match (p : Portfolio) (hp : Reachable p) :
    (∀ s : String, s ∈ p.avgCostBasis ↔ s ∈ p.positions) ∧
    (∀ s : String, INT_MIN ≤ p.getPosition s ∧ p.getPosition s ≤ INT_MAX) ∧
    (∀ cs : List Call, runFits Portfolio.new cs → runCalls Portfolio.new cs = p →
      ∀ s : String, s ∈ p.positions → 0 < p.getPosition s) := by
  refine ⟨reachable_keysAgree p hp,
    getPosition_inRange p (reachable_sharesInRange p hp), ?_⟩
  intro cs hfits hcs s hs
  have hpos : SharesPositive p := by
    rw [← hcs]
    refine runFits_sharesPositive cs Portfolio.new ?_ hfits
    intro s n hn
    simp [Portfolio.new] at hn
  rw [← AList.lookup_isSome] at hs
  cases hl : p.positions.lookup s with
  | none => rw [hl] at hs; exact absurd hs (by decide)
  | some n =>
    simp only [Portfolio.getPosition, hl]
    exact hpos s n hl

/-- The mixed run is reachable, none of its calls overflows a share count, and it
satisfies the positions invariant. -/
theorem held_positive_and_bases_match_witness :
    Reachable ledgerMixed ∧ runFits Portfolio.new callsMixed ∧
    runCalls Portfolio.new callsMixed = ledgerMixed ∧
    ((∀ s : String, s ∈ ledgerMixed.avgCostBasis ↔ s ∈ ledgerMixed.positions) ∧
     (∀ s : String, INT_MIN ≤ ledgerMixed.getPosition s ∧
        ledgerMixed.getPosition s ≤ INT_MAX) ∧
     (∀ cs : List Call, runFits Portfolio.new cs → runCalls Portfolio.new cs = ledgerMixed →
        ∀ s : String, s ∈ ledgerMixed.positions → 0 < ledgerMixed.getPosition s)) :=
  ⟨⟨_, rfl⟩,
   ⟨trivial, Or.inr (by decide!), trivial, trivial, trivial, trivial, trivial, trivial⟩,
   rfl, held_positive_and_bases_match ledgerMixed ⟨_, rfl⟩⟩

/-- C5, counterexample to the claim as worded: `setCash(4000000000)`,
`buy("X", 2147483647, 1)`, `buy("X", 1, 1)` is a sequence of calls on a fresh ledger, none
of them rejected; the second purchase wraps the `int` count, so the state reached has `X`
in its positions map with the share count `INT_MIN`, which is not above 0. -/
theorem held_count_wraps_negative :
    Reachable (runCalls Portfolio.new callsOverflow) ∧
    (ledgerFull.buy "X" 1 1).thrown = none ∧
    (runCalls Portfolio.new callsOverflow).positions.keys = ["X"] ∧
    (runCalls Portfolio.new callsOverflow).getPosition "X" = -2147483648 ∧
    ¬ (∀ s : String, s ∈ (runCalls Portfolio.new callsOverflow).positions →
        0 < (runCalls Portfolio.new callsOverflow).getPosition s) := by
  have hk : (runCalls Portfolio.new callsOverflow).positions.keys = ["X"] := by decide!
  have hv : (runCalls Portfolio.new callsOverflow).getPosition "X" = -2147483648 := by
    decide!
  refine ⟨⟨_, rfl⟩, by decide!, hk, hv, ?_⟩
  intro h
  have hm : "X" ∈ (runCalls Portfolio.new callsOverflow).positions := by
    rw [AList.mem_keys, hk]; exact List.mem_singleton.mpr rfl
  have := h "X" hm
  rw [hv] at this
  exact absurd this (by decide)

/-- C6: in every reachable ledger state, whatever the interleaving of `updateNetWorth`
with the other calls, the returns series has `max(0, len(equityCurve) - 1)` entries. -/
theorem returns_one_shorter_than_curve (p : Portfolio) (hp : Reachable p) :
    (p.returns.length : ℤ) = max 0 ((p.equityCurve.length : ℤ) - 1) := by
  have key : p.returns.length = p.equityCurve.length - 1 := by
    refine reachable_induction (fun p => p.returns.length = p.equityCurve.length - 1)
      ?_ ?_ p hp
    · rfl
    · intro p c h
      cases c with
      | setCash a =>
        rcases setCash_step p a with h' | ⟨_, h'⟩
        · show (p.setCash a).state.returns.length = (p.setCash a).state.equityCurve.length - 1
          rw [h']; exact h
        · show (p.setCash a).state.returns.length = (p.setCash a).state.equityCurve.length - 1
          rw [h']; exact h
      | buy s q pr =>
        show (p.buy s q pr).state.returns.length = (p.buy s q pr).state.equityCurve.length - 1
        rw [(buy_curves p s q pr).1, (buy_curves p s q pr).2]; exact h
      | sell s q pr =>
        show (p.sell s q pr).state.returns.length = (p.sell s q pr).state.equityCurve.length - 1
        rw [(sell_curves p s q pr).1, (sell_curves p s q pr).2]; exact h
      | updateNetWorth m => exact updateNetWorth_lengths p m h
  omega

/-- The mixed run, with two marks, is reachable and has one return for two curve points. -/
theorem returns_one_shorter_than_curve_witness :
    Reachable ledgerMixed ∧
    (ledgerMixed.returns.length : ℤ) = max 0 ((ledgerMixed.equityCurve.length : ℤ) - 1) :=
  ⟨⟨_, rfl⟩, returns_one_shorter_than_curve ledgerMixed ⟨_, rfl⟩⟩

/-- C7: `updateNetWorth(currentPrices)` throws nothing, appends to the equity curve
exactly `cash + Σ heldQty(s) * currentPrices[s]`, the sum ranging over the held symbols
that are keys of `currentPrices` (the others contribute nothing), and leaves cash,
positions and cost bases as they were. -/
theorem updateNetWorth_appends_mark (p : Portfolio) (m : SymMap ℚ) :
    (p.updateNetWorth m).thrown = none ∧
    (p.updateNetWorth m).state.equityCurve =
      p.equityCurve ++
        [p.cash + ∑ s in p.positions.keys.toFinset.filter (fun s => s ∈ m),
            (p.getPosition s : ℚ) * (m.lookup s).getD 0] ∧
    (p.updateNetWorth m).state.cash = p.cash ∧
    (p.updateNetWorth m).state.positions = p.positions ∧
    (p.updateNetWorth m).state.avgCostBasis = p.avgCostBasis := by
  obtain ⟨h1, h2, h3, h4⟩ := updateNetWorth_frame p m
  refine ⟨h1, ?_, h2, h3, h4⟩
  have hcurve : (p.updateNetWorth m).state.equityCurve =
      p.equityCurve ++ [p.positions.entries.foldl (Portfolio.markStep m) p.cash] := by
    simp only [Portfolio.updateNetWorth]
    split_ifs <;> rfl
  rw [hcurve, markStep_foldl]
  congr 3
  rw [Finset.sum_filter, List.sum_toFinset _ p.positions.keys_nodup]
  unfold AList.keys List.keys
  rw [List.map_map]
  refine congrArg List.sum (List.map_congr_left ?_)
  intro e he
  have hlook : p.positions.lookup e.1 = some e.2 := by
    have : e.2 ∈ p.positions.lookup e.1 := AList.mem_lookup_iff.mpr he
    exact this
  simp only [Function.comp, Portfolio.getPosition, hlook]
  cases hm : m.lookup e.1 with
  | none =>
    have : e.1 ∉ m := AList.lookup_eq_none.mp hm
    simp [this]
  | some v =>
    have : e.1 ∈ m := by rw [← AList.lookup_isSome, hm]; rfl
    simp [this]

/-- C8 (code evaluated at a failing input): on the ledger marked at 1000 while holding 10
shares bought for 100 in total, the equity curve is `[1000]` but `getNetWorth` returns 900,
the cash alone, because every position is valued at the placeholder price 0. -/
theorem getNetWorth_misses_last_mark :
    Reachable ledgerMarked ∧ ledgerMarked.equityCurve = [1000] ∧
    ledgerMarked.cash = 900 ∧ ledgerMarked.getPosition "X" = 10 ∧
    ledgerMarked.getNetWorth = 900 :=
  ⟨⟨_, rfl⟩, by decide!, by decide!, by decide!, by decide!⟩

/-- C9 (counterexample): `setCash(5)` on the mixed run succeeds, yet none of the positions
map, the cost-basis map, the equity curve and the returns series is empty afterwards. -/
theorem setCash_clears_counterexample :
    ¬ ((5 : ℚ) < 0) ∧ (ledgerMixed.setCash 5).thrown = none ∧
    (ledgerMixed.setCash 5).state.positions ≠ ∅ ∧
    (ledgerMixed.setCash 5).state.avgCostBasis ≠ ∅ ∧
    (ledgerMixed.setCash 5).state.equityCurve ≠ [] ∧
    (ledgerMixed.setCash 5).state.returns ≠ [] := by
  refine ⟨by norm_num, by decide!, ?_, ?_, by decide!, by decide!⟩
  · intro h
    have hk := congrArg AList.keys h
    revert hk
    decide!
  · intro h
    have hk := congrArg AList.keys h
    revert hk
    decide!

/-- C9 (amended): `setCash(amount)` throws (`invalid_argument`, the spec's
InvalidConfiguration) exactly when `amount < 0`, leaving the ledger as it was; otherwise
the cash becomes `amount` and the positions map, the cost-basis map, the equity curve and
the returns series are unchanged, hence empty on a freshly constructed ledger. -/
theorem setCash_sets_cash_only (p : Portfolio) (amount : ℚ) :
    ((p.setCash amount).thrown ≠ none ↔ amount < 0) ∧
    (amount < 0 →
      (p.setCash amount).thrown =
        some (Exn.invalid_argument "Cash amount cannot be negative.") ∧
      (p.setCash amount).state = p) ∧
    (¬ amount < 0 →
      (p.setCash amount).state.cash = amount ∧
      (p.setCash amount).state.positions = p.positions ∧
      (p.setCash amount).state.avgCostBasis = p.avgCostBasis ∧
      (p.setCash amount).state.equityCurve = p.equityCurve ∧
      (p.setCash amount).state.returns = p.returns) ∧
    (¬ amount < 0 →
      (Portfolio.new.setCash amount).state.positions = ∅ ∧
      (Portfolio.new.setCash amount).state.avgCostBasis = ∅ ∧
      (Portfolio.new.setCash amount).state.equityCurve = [] ∧
      (Portfolio.new.setCash amount).state.returns = []) := by
  refine ⟨?_, ?_, ?_, ?_⟩
  · simp only [Portfolio.setCash]
    split_ifs with h <;> simp [h]
  · intro h
    simp only [Portfolio.setCash, if_pos h, and_self]
  · intro h
    simp only [Portfolio.setCash, if_neg h, and_self]
  · intro h
    simp only [Portfolio.setCash, if_neg h, Portfolio.new, and_self]

/-- C10 (code evaluated at a failing input): the ledger whose only equity-curve entry is
0 is reachable; the next `updateNetWorth` throws nothing, appends the mark 100 and appends
a return, the quotient `(100 - 0) / 0` by that zero entry. -/
theorem updateNetWorth_divides_by_zero_mark :
    Reachable ledgerZeroMark ∧ ledgerZeroMark.equityCurve = [0] ∧
    ledgerZeroMark.returns = [] ∧
    (ledgerZeroMark.updateNetWorth ∅).thrown = none ∧
    (ledgerZeroMark.updateNetWorth ∅).state.equityCurve = [0, 100] ∧
    (ledgerZeroMark.updateNetWorth ∅).state.returns = [(100 - 0) / 0] :=
  ⟨⟨_, rfl⟩, by decide!, by decide!, by decide!, by decide!, by decide!⟩

/-! ## Lemmas about `metrics.cpp` -/

theorem accumulate_eq_sum (xs : List ℚ) : Metrics.accumulate xs = xs.sum := by
  unfold Metrics.accumulate
  have h : ∀ (l : List ℚ) (a : ℚ), l.foldl (fun acc x => acc + x) a = a + l.sum := by
    intro l
    induction l with
    | nil => intro a; simp
    | cons x l ih => intro a; rw [List.foldl_cons, ih, List.sum_cons]; ring
  rw [h]; ring

theorem foldl_add_map (f : ℚ → ℚ) (l : List ℚ) (a : ℚ) :
    l.foldl (fun acc r => acc + f r) a = a + (l.map f).sum := by
  induction l generalizing a with
  | nil => simp
  | cons x l ih => rw [List.foldl_cons, ih, List.map_cons, List.sum_cons]; ring

theorem drawdownStep_eq (st : ℚ × ℚ) (v : ℚ) :
    Metrics.drawdownStep st v =
      (max st.1 ((max st.2 v - v) / max st.2 v), max st.2 v) := by
  have hp : (if v > st.2 then v else st.2) = max st.2 v := by
    rcases le_or_lt v st.2 with h | h
    · rw [if_neg (not_lt.mpr h), max_eq_left h]
    · rw [if_pos h, max_eq_right h.le]
  simp only [Metrics.drawdownStep, hp]
  congr 1
  rcases le_or_lt ((max st.2 v - v) / max st.2 v) st.1 with h | h
  · rw [if_neg (not_lt.mpr h), max_eq_left h]
  · rw [if_pos h, max_eq_right h.le]

theorem foldl_drawdownStep (l : List ℚ) (m p : ℚ) :
    l.foldl Metrics.drawdownStep (m, p) = ((drawdowns p l).foldl max m, l.foldl max p) := by
  induction l generalizing m p with
  | nil => rfl
  | cons v l ih =>
    rw [List.foldl_cons, drawdownStep_eq, ih]
    rfl

theorem foldl_max_ge_init (l : List ℚ) (m : ℚ) : m ≤ l.foldl max m := by
  induction l generalizing m with
  | nil => exact le_refl _
  | cons x l ih => exact le_trans (le_max_left m x) (ih (max m x))

theorem foldl_max_ge_mem (l : List ℚ) (m x : ℚ) (hx : x ∈ l) : x ≤ l.foldl max m := by
  induction l generalizing m with
  | nil => cases hx
  | cons y l ih =>
    rw [List.foldl_cons]
    rcases List.mem_cons.mp hx with rfl | h
    · exact le_trans (le_max_right m x) (foldl_max_ge_init l _)
    · exact ih _ h

theorem foldl_max_mem (l : List ℚ) (m : ℚ) : l.foldl max m = m ∨ l.foldl max m ∈ l := by
  induction l generalizing m with
  | nil => exact Or.inl rfl
  | cons y l ih =>
    rw [List.foldl_cons]
    rcases ih (max m y) with h | h
    · rw [h]
      rcases max_choice m y with h' | h'
      · exact Or.inl h'
      · exact Or.inr (by rw [h']; exact List.mem_cons_self _ _)
    · exact Or.inr (List.mem_cons_of_mem _ h)

theorem drawdowns_length (l : List ℚ) (p : ℚ) : (drawdowns p l).length = l.length := by
  induction l generalizing p with
  | nil => rfl
  | cons v l ih => simp only [drawdowns, List.length_cons, ih]

theorem drawdowns_getD (l : List ℚ) (p : ℚ) (j : ℕ) (hj : j < l.length) :
    (drawdowns p l).getD j 0 =
      ((l.take (j + 1)).foldl max p - l.getD j 0) / (l.take (j + 1)).foldl max p := by
  induction l generalizing p j with
  | nil => cases hj
  | cons v l ih =>
    cases j with
    | zero => simp [drawdowns]
    | succ j =>
      have hj' : j < l.length := by simpa using hj
      simp only [drawdowns, List.getD_cons_succ, List.take_succ_cons, List.foldl_cons]
      exact ih (max p v) j hj'

theorem getD_mem_self (l : List ℚ) (j : ℕ) (hj : j < l.length) : l.getD j 0 ∈ l := by
  rw [List.getD_eq_getElem l 0 hj]
  exact List.getElem_mem hj

theorem getD_mem_take (curve : List ℚ) (i j : ℕ) (hij : i ≤ j) (hj : j < curve.length) :
    curve.getD i 0 ∈ curve.take (j + 1) := by
  have hi : i < curve.length := lt_of_le_of_lt hij hj
  have hi' : i < (curve.take (j + 1)).length := by
    rw [List.length_take]; omega
  have : (curve.take (j + 1))[i] = curve.getD i 0 := by
    rw [List.getElem_take, List.getD_eq_getElem _ _ hi]
  rw [← this]
  exact List.getElem_mem hi'

theorem mem_take_getD (curve : List ℚ) (x : ℚ) (j : ℕ) (hx : x ∈ curve.take (j + 1)) :
    ∃ i, i ≤ j ∧ i < curve.length ∧ x = curve.getD i 0 := by
  obtain ⟨i, hi, rfl⟩ := List.mem_iff_getElem.mp hx
  rw [List.length_take] at hi
  refine ⟨i, by omega, by omega, ?_⟩
  rw [List.getElem_take, List.getD_eq_getElem _ _ (by omega)]

theorem runningPeak_isMax (curve : List ℚ) (j : ℕ) (hj : j < curve.length) :
    (∀ i, i ≤ j → curve.getD i 0 ≤ runningPeak curve j) ∧
    ∃ i, i ≤ j ∧ runningPeak curve j = curve.getD i 0 := by
  constructor
  · intro i hij
    exact foldl_max_ge_mem _ _ _ (getD_mem_take curve i j hij hj)
  · rcases foldl_max_mem (curve.take (j + 1)) (curve.getD 0 0) with h | h
    · exact ⟨0, Nat.zero_le j, h⟩
    · obtain ⟨i, hij, _, hi⟩ := mem_take_getD curve _ j h
      exact ⟨i, hij, hi⟩

theorem drawdowns_getD_eq_drawdownAt (curve : List ℚ) (j : ℕ) (hj : j < curve.length) :
    (drawdowns (curve.getD 0 0) curve).getD j 0 = drawdownAt curve j :=
  drawdowns_getD curve (curve.getD 0 0) j hj

theorem calculateMaxDrawdown_eq (curve : List ℚ) (hne : curve ≠ []) :
    Metrics.calculateMaxDrawdown curve =
      Except.ok ((drawdowns (curve.getD 0 0) curve).foldl max 0) := by
  have h : curve.isEmpty = false := by
    cases curve with
    | nil => exact absurd rfl hne
    | cons _ _ => rfl
  simp only [Metrics.calculateMaxDrawdown, h, foldl_drawdownStep]
  rfl

/-- C11: `calculateMaxDrawdown` throws (`invalid_argument`, the spec's EmptyInput) exactly
when the curve is empty; on a non-empty curve of strictly positive values it returns the
largest of the drawdowns `(P_j - curve[j]) / P_j`, `P_j` being the maximum of
`curve[0..j]`, which is at least 0; on `[100, 120, 90, 150]` it returns 1/4. -/
theorem maxDrawdown_is_largest_drawdown (curve : List ℚ) :
    ((∃ e, Metrics.calculateMaxDrawdown curve = Except.error e) ↔ curve = []) ∧
    (curve ≠ [] → (∀ v ∈ curve, 0 < v) →
      ∃ r, Metrics.calculateMaxDrawdown curve = Except.ok r ∧ 0 ≤ r ∧
        (∀ j, j < curve.length → drawdownAt curve j ≤ r) ∧
        (∃ j, j < curve.length ∧ r = drawdownAt curve j)) ∧
    (∀ j, j < curve.length →
      (∀ i, i ≤ j → curve.getD i 0 ≤ runningPeak curve j) ∧
      ∃ i, i ≤ j ∧ runningPeak curve j = curve.getD i 0) ∧
    Metrics.calculateMaxDrawdown [100, 120, 90, 150] = Except.ok (1 / 4) := by
  refine ⟨?_, ?_, fun j hj => runningPeak_isMax curve j hj, by decide!⟩
  · constructor
    · rintro ⟨e, he⟩
      by_contra hne
      rw [calculateMaxDrawdown_eq curve hne] at he
      cases he
    · rintro rfl
      exact ⟨_, rfl⟩
  · intro hne _
    refine ⟨_, calculateMaxDrawdown_eq curve hne, foldl_max_ge_init _ _, ?_, ?_⟩
    · intro j hj
      rw [← drawdowns_getD_eq_drawdownAt curve j hj]
      apply foldl_max_ge_mem
      exact getD_mem_self _ j (by rw [drawdowns_length]; exact hj)
    · have hlen : 0 < curve.length := List.length_pos.mpr hne
      rcases foldl_max_mem (drawdowns (curve.getD 0 0) curve) 0 with h | h
      · refine ⟨0, hlen, ?_⟩
        rw [h]
        cases curve with
        | nil => exact absurd rfl hne
        | cons v l => simp [drawdownAt, runningPeak]
      · obtain ⟨j, hj, hjeq⟩ := List.mem_iff_getElem.mp h
        rw [drawdowns_length] at hj
        refine ⟨j, hj, ?_⟩
        rw [← drawdowns_getD_eq_drawdownAt curve j hj,
          List.getD_eq_getElem (drawdowns (curve.getD 0 0) curve) 0
            (by rw [drawdowns_length]; exact hj)]
        exact hjeq.symm

/-- Scenario B: the curve `[100, 120, 90, 150]` is non-empty and positive, and its
maximum drawdown, 1/4, is the drawdown at position 2 (peak 120, value 90). -/
theorem maxDrawdown_is_largest_drawdown_witness :
    ([100, 120, 90, 150] : List ℚ) ≠ [] ∧ (∀ v ∈ ([100, 120, 90, 150] : List ℚ), 0 < v) ∧
    drawdownAt [100, 120, 90, 150] 2 = 1 / 4 ∧
    ∃ r, Metrics.calculateMaxDrawdown [100, 120, 90, 150] = Except.ok r ∧ 0 ≤ r ∧
      (∀ j, j < ([100, 120, 90, 150] : List ℚ).length → drawdownAt [100, 120, 90, 150] j ≤ r) ∧
      (∃ j, j < ([100, 120, 90, 150] : List ℚ).length ∧ r = drawdownAt [100, 120, 90, 150] j) :=
  ⟨by decide, by decide!, by decide!,
   (maxDrawdown_is_largest_drawdown [100, 120, 90, 150]).2.1 (by decide) (by decide!)⟩

theorem chain_of_getD_le (l : List ℚ)
    (h : ∀ i, i + 1 < l.length → l.getD i 0 ≤ l.getD (i + 1) 0) :
    l.Chain' (fun a b => a ≤ b) := by
  rw [List.chain'_iff_get]
  intro i hi
  have hi1 : i + 1 < l.length := by omega
  have := h i hi1
  rw [List.getD_eq_getElem l 0 hi1, List.getD_eq_getElem l 0 (by omega)] at this
  exact this

theorem drawdowns_of_chain (l : List ℚ) (p : ℚ) (hp : ∀ v ∈ l.head?, p ≤ v)
    (hmono : l.Chain' (fun a b => a ≤ b)) : ∀ d ∈ drawdowns p l, d = 0 := by
  induction l generalizing p with
  | nil => intro d hd; cases hd
  | cons v l ih =>
    have hpv : p ≤ v := hp v rfl
    rw [List.chain'_cons'] at hmono
    intro d hd
    simp only [drawdowns, max_eq_right hpv, sub_self, zero_div, List.mem_cons] at hd
    rcases hd with rfl | hd
    · rfl
    · exact ih v hmono.1 hmono.2 d hd

/-- C12: on a non-empty curve that never decreases, `calculateMaxDrawdown` returns
exactly 0. -/
theorem maxDrawdown_zero_of_nondecreasing (curve : List ℚ) (hne : curve ≠ [])
    (hmono : ∀ i, i + 1 < curve.length → curve.getD i 0 ≤ curve.getD (i + 1) 0) :
    Metrics.calculateMaxDrawdown curve = Except.ok 0 := by
  rw [calculateMaxDrawdown_eq curve hne]
  congr 1
  have hhead : ∀ v ∈ curve.head?, curve.getD 0 0 ≤ v := by
    cases curve with
    | nil => exact absurd rfl hne
    | cons a l =>
      intro v hv
      simp only [List.head?_cons, Option.mem_def, Option.some.injEq] at hv
      subst hv
      simp
  have hzero := drawdowns_of_chain curve (curve.getD 0 0) hhead (chain_of_getD_le curve hmono)
  rcases foldl_max_mem (drawdowns (curve.getD 0 0) curve) 0 with h | h
  · exact h
  · exact hzero _ h

/-- A curve that rises with a flat stretch has maximum drawdown 0. -/
theorem maxDrawdown_zero_of_nondecreasing_witness :
    ([100, 100, 120, 150] : List ℚ) ≠ [] ∧
    (∀ i, i + 1 < ([100, 100, 120, 150] : List ℚ).length →
      ([100, 100, 120, 150] : List ℚ).getD i 0 ≤ ([100, 100, 120, 150] : List ℚ).getD (i + 1) 0) ∧
    Metrics.calculateMaxDrawdown [100, 100, 120, 150] = Except.ok 0 :=
  have hmono : ∀ i, i + 1 < ([100, 100, 120, 150] : List ℚ).length →
      ([100, 100, 120, 150] : List ℚ).getD i 0 ≤ ([100, 100, 120, 150] : List ℚ).getD (i + 1) 0 := by
    intro i hi
    have hi' : i < 3 := by
      simp only [List.length_cons, List.length_nil] at hi
      omega
    interval_cases i <;> norm_num
  ⟨by decide, hmono, maxDrawdown_zero_of_nondecreasing [100, 100, 120, 150] (by decide) hmono⟩

/-- C13: `calculateTotalReturn` throws (`invalid_argument`, the spec's InsufficientData)
exactly when the curve has fewer than 2 points; otherwise it returns
`(last - first) / first`; on `[100, 120, 90, 150]` it returns 1/2. -/
theorem totalReturn_first_to_last (curve : List ℚ) :
    ((∃ e, Metrics.calculateTotalReturn curve = Except.error e) ↔ curve.length < 2) ∧
    (2 ≤ curve.length →
      Metrics.calculateTotalReturn curve =
        Except.ok ((curve.getD (curve.length - 1) 0 - curve.getD 0 0) / curve.getD 0 0)) ∧
    (∀ (h : curve ≠ []), 2 ≤ curve.length →
      Metrics.calculateTotalReturn curve =
        Except.ok ((curve.getLast h - curve.head h) / curve.head h)) ∧
    Metrics.calculateTotalReturn [100, 120, 90, 150] = Except.ok (1 / 2) := by
  refine ⟨?_, ?_, ?_, by decide!⟩
  · simp only [Metrics.calculateTotalReturn]
    split_ifs with h
    · simp [h]
    · simp [h]
  · intro h
    simp only [Metrics.calculateTotalReturn, if_neg (not_lt.mpr h)]
  · intro hne h
    simp only [Metrics.calculateTotalReturn, if_neg (not_lt.mpr h)]
    congr 1
    have hlast : curve.getD (curve.length - 1) 0 = curve.getLast hne := by
      rw [List.getD_eq_getElem curve 0 (by omega), List.getLast_eq_getElem]
    have hhead : curve.getD 0 0 = curve.head hne := by
      cases curve with
      | nil => exact absurd rfl hne
      | cons a l => simp
    rw [hlast, hhead]

/-- C14: for a curve with at least 2 points and a non-zero first value,
`calculateAnnualizedReturn` with `periodsPerYear` equal to the curve's length returns what
`calculateTotalReturn` returns; `std::pow` enters through its law `pow(x, 1) = x`, and
the arithmetic is exact. -/
theorem annualized_eq_total_over_one_year (pow : ℚ → ℚ → ℚ) (hpow : ∀ x, pow x 1 = x)
    (curve : List ℚ) (hlen : 2 ≤ curve.length) (_hfirst : curve.getD 0 0 ≠ 0) :
    Metrics.calculateAnnualizedReturn pow curve (curve.length : ℤ) =
      Metrics.calculateTotalReturn curve := by
  have hn : ((curve.length : ℤ) : ℚ) ≠ 0 := by
    have : (0 : ℤ) < (curve.length : ℤ) := by omega
    exact_mod_cast this.ne.symm
  have hn' : (curve.length : ℚ) ≠ 0 := by exact_mod_cast hn
  simp only [Metrics.calculateAnnualizedReturn, Metrics.calculateTotalReturn,
    if_neg (not_lt.mpr hlen)]
  congr 1
  have hyears : (curve.length : ℚ) / ((curve.length : ℤ) : ℚ) = 1 := by
    push_cast
    exact div_self hn'
  rw [hyears, div_one, hpow]
  ring

/-- Scenario B's curve has 4 points; annualised over 4 periods per year, its return is
its total return. -/
theorem annualized_eq_total_over_one_year_witness :
    (∀ x, powOnIntegers x 1 = x) ∧ 2 ≤ ([100, 120, 90, 150] : List ℚ).length ∧
    ([100, 120, 90, 150] : List ℚ).getD 0 0 ≠ 0 ∧
    Metrics.calculateAnnualizedReturn powOnIntegers [100, 120, 90, 150]
        (([100, 120, 90, 150] : List ℚ).length : ℤ) =
      Metrics.calculateTotalReturn [100, 120, 90, 150] :=
  have hpow : ∀ x, powOnIntegers x 1 = x := by
    intro x
    simp [powOnIntegers]
  ⟨hpow, by decide, by decide!,
   annualized_eq_total_over_one_year powOnIntegers hpow [100, 120, 90, 150]
     (by decide) (by decide!)⟩

theorem isEmpty_eq_false_of_ne_nil (l : List ℚ) (h : l ≠ []) : l.isEmpty = false := by
  cases l with
  | nil => exact absurd rfl h
  | cons _ _ => rfl

theorem calculateSharpeRatio_eq (sqrt : ℚ → ℚ) (returns : List ℚ) (rf : ℚ)
    (hne : returns ≠ []) :
    Metrics.calculateSharpeRatio id sqrt returns rf =
      Except.ok
        (if sqrt ((returns.map (fun r =>
              (r - returns.sum / (returns.length : ℚ)) ^ 2)).sum / (returns.length : ℚ)) = 0
         then 0
         else (returns.sum / (returns.length : ℚ) - rf) /
            sqrt ((returns.map (fun r =>
              (r - returns.sum / (returns.length : ℚ)) ^ 2)).sum / (returns.length : ℚ))) := by
  have hacc : returns.foldl (fun acc x => acc + x) 0 = returns.sum := accumulate_eq_sum returns
  simp only [Metrics.calculateSharpeRatio, isEmpty_eq_false_of_ne_nil returns hne, id_eq,
    hacc, foldl_add_map, zero_add, Bool.false_eq_true, if_false, ← sq]

theorem foldl_variance_const (fl : ℚ → ℚ) (hfl : fl 0 = 0) (c : ℚ) (l : List ℚ)
    (hc : ∀ r ∈ l, r = c) :
    l.foldl (fun variance r => fl (variance + fl (fl (r - c) * fl (r - c)))) 0 = 0 := by
  induction l with
  | nil => rfl
  | cons x xs ih =>
    have hx : x = c := hc x (List.mem_cons_self x xs)
    rw [List.foldl_cons, hx, sub_self, hfl, mul_zero, hfl, add_zero, hfl]
    exact ih (fun r hr => hc r (List.mem_cons_of_mem x hr))

theorem calculateSharpeRatio_const (fl sqrt : ℚ → ℚ) (returns : List ℚ) (rf c : ℚ)
    (hfl : fl 0 = 0) (hsqrt : sqrt 0 = 0) (hne : returns ≠ []) (hc : ∀ r ∈ returns, r = c)
    (hmean : fl (returns.foldl (fun acc x => fl (acc + x)) 0 / fl (returns.length : ℚ)) = c) :
    Metrics.calculateSharpeRatio fl sqrt returns rf = Except.ok 0 := by
  simp only [Metrics.calculateSharpeRatio, isEmpty_eq_false_of_ne_nil returns hne, hmean,
    foldl_variance_const fl hfl c returns hc, zero_div, hfl, hsqrt, Bool.false_eq_true,
    if_false, if_true]

/-- C15, as amended: `calculateSharpeRatio` throws (`invalid_argument`, the spec's
EmptyInput) exactly when `returns` is empty, whatever the rounding.  In exact arithmetic
(`fl = id`), on `N ≥ 1` returns with mean `m` and population deviation
`s = sqrt((1/N) Σ (r_i - m)²)` it returns 0 if `s = 0` and `(m - riskFreeRate) / s`
otherwise, and on a constant series it returns 0 whatever the rate (given `sqrt 0 = 0`).
Under a rounding `fl` with `fl 0 = 0`, a constant series gives 0 when the mean the code
computes is the constant itself. -/
theorem sharpe_population_formula (fl sqrt : ℚ → ℚ) (returns : List ℚ) (riskFreeRate : ℚ) :
    ((∃ e, Metrics.calculateSharpeRatio fl sqrt returns riskFreeRate = Except.error e) ↔
      returns = []) ∧
    (returns ≠ [] →
      Metrics.calculateSharpeRatio id sqrt returns riskFreeRate =
        Except.ok
          (if sqrt ((1 / (returns.length : ℚ)) * (returns.map (fun r =>
                (r - returns.sum / (returns.length : ℚ)) ^ 2)).sum) = 0
           then 0
           else (returns.sum / (returns.length : ℚ) - riskFreeRate) /
              sqrt ((1 / (returns.length : ℚ)) * (returns.map (fun r =>
                (r - returns.sum / (returns.length : ℚ)) ^ 2)).sum))) ∧
    (sqrt 0 = 0 → returns ≠ [] → ∀ c : ℚ, (∀ r ∈ returns, r = c) →
      Metrics.calculateSharpeRatio id sqrt returns riskFreeRate = Except.ok 0) ∧
    (fl 0 = 0 → sqrt 0 = 0 → returns ≠ [] → ∀ c : ℚ, (∀ r ∈ returns, r = c) →
      fl (returns.foldl (fun acc x => fl (acc + x)) 0 / fl (returns.length : ℚ)) = c →
      Metrics.calculateSharpeRatio fl sqrt returns riskFreeRate = Except.ok 0) := by
  refine ⟨?_, ?_, ?_, ?_⟩
  · constructor
    · rintro ⟨e, he⟩
      by_contra hne
      simp only [Metrics.calculateSharpeRatio, isEmpty_eq_false_of_ne_nil returns hne,
        Bool.false_eq_true, if_false] at he
      cases he
    · rintro rfl
      exact ⟨_, rfl⟩
  · intro hne
    rw [calculateSharpeRatio_eq sqrt returns riskFreeRate hne]
    simp only [one_div, inv_mul_eq_div]
  · intro hsqrt hne c hc
    have hlen : (returns.length : ℚ) ≠ 0 := by
      have : 0 < returns.length := List.length_pos.mpr hne
      exact_mod_cast this.ne.symm
    have hsum : returns.sum = (returns.length : ℚ) * c := by
      rw [List.eq_replicate_of_mem hc]
      simp
    have hacc : returns.foldl (fun acc x => id (acc + x)) 0 = returns.sum :=
      accumulate_eq_sum returns
    refine calculateSharpeRatio_const id sqrt returns riskFreeRate c rfl hsqrt hne hc ?_
    rw [hacc, hsum, id_eq, id_eq]
    field_simp
  · intro hfl hsqrt hne c hc hmean
    exact calculateSharpeRatio_const fl sqrt returns riskFreeRate c hfl hsqrt hne hc hmean

/-- In exact arithmetic the series `[1, 3]` has mean 2 and population deviation 1, so its
Sharpe ratio at rate 0 is 2, and the constant series `[5, 5, 5]` has ratio 0 at rate 1;
in double arithmetic the constant series `[0.5, 0.5]`, whose computed mean is 0.5, has
ratio 0 at rate 1. -/
theorem sharpe_population_formula_witness :
    Rat.sqrt 0 = 0 ∧ ([5, 5, 5] : List ℚ) ≠ [] ∧ (∀ r ∈ ([5, 5, 5] : List ℚ), r = 5) ∧
    Metrics.calculateSharpeRatio id Rat.sqrt [5, 5, 5] 1 = Except.ok 0 ∧
    Metrics.calculateSharpeRatio id Rat.sqrt [1, 3] 0 = Except.ok 2 ∧
    roundBinary64 0 = 0 ∧ sqrtBinary64 0 = 0 ∧ ([1 / 2, 1 / 2] : List ℚ) ≠ [] ∧
    (∀ r ∈ ([1 / 2, 1 / 2] : List ℚ), r = 1 / 2) ∧
    roundBinary64 (([1 / 2, 1 / 2] : List ℚ).foldl (fun acc x => roundBinary64 (acc + x)) 0 /
      roundBinary64 ((([1 / 2, 1 / 2] : List ℚ).length : ℕ) : ℚ)) = 1 / 2 ∧
    Metrics.calculateSharpeRatio roundBinary64 sqrtBinary64 [1 / 2, 1 / 2] 1 = Except.ok 0 :=
  ⟨by decide!, by decide, by decide!,
   (sharpe_population_formula id Rat.sqrt [5, 5, 5] 1).2.2.1 (by decide!) (by decide) 5
     (by decide!),
   by decide!, by decide!, by decide!, by decide, by decide!, by decide!,
   (sharpe_population_formula roundBinary64 sqrtBinary64 [1 / 2, 1 / 2] 1).2.2.2 (by decide!)
     (by decide!) (by decide) (1 / 2) (by decide!) (by decide!)⟩

/-- C15, counterexample to the claim as worded: in double arithmetic the constant series
of three returns `0.1` does not give 0.  The sum `0.1 + 0.1 + 0.1` rounds to
`0.30000000000000004`, the computed mean is `0.1 + 2^-56`, so every deviation is `-2^-56`,
the variance is `2^-112` and its square root is exactly `2^-56`, not 0: at rate 0 the
function returns `(0.1 + 2^-56) / 2^-56 = 7205759403792795`, and at rate 5 a value below
`-10^17`. -/
theorem sharpe_constant_series_nonzero :
    returnsTenth ≠ [] ∧ (∀ r ∈ returnsTenth, r = tenth) ∧
    tenth = 3602879701896397 / 2 ^ 55 ∧
    roundBinary64 (returnsTenth.foldl (fun acc x => roundBinary64 (acc + x)) 0 /
      roundBinary64 ((returnsTenth.length : ℕ) : ℚ)) = tenth + 1 / 2 ^ 56 ∧
    sqrtBinary64 (1 / 2 ^ 112) = 1 / 2 ^ 56 ∧
    Metrics.calculateSharpeRatio roundBinary64 sqrtBinary64 returnsTenth 0 =
      Except.ok 7205759403792795 ∧
    Metrics.calculateSharpeRatio roundBinary64 sqrtBinary64 returnsTenth 0 ≠ Except.ok 0 ∧
    (∃ v : ℚ, Metrics.calculateSharpeRatio roundBinary64 sqrtBinary64 returnsTenth 5 =
      Except.ok v ∧ v < -100000000000000000) :=
  ⟨by decide!, by decide!, by decide!, by decide!, by decide!, by decide!, by decide!,
   ⟨_, rfl, by decide!⟩⟩

theorem foldl_profitStep (l : List ℚ) (a b : ℚ) :
    l.foldl Metrics.profitStep (a, b) =
      (a + (l.filter (fun r => decide (0 < r))).sum,
       b + ((l.filter (fun r => decide (r < 0))).map (fun r => |r|)).sum) := by
  induction l generalizing a b with
  | nil => simp
  | cons x l ih =>
    rw [List.foldl_cons]
    rcases lt_trichotomy x 0 with hx | hx | hx
    · have h1 : ¬ x > 0 := not_lt.mpr hx.le
      have h2 : ¬ 0 < x := h1
      simp only [Metrics.profitStep, if_neg h1, ih, List.filter_cons, h2, hx, decide_True,
        decide_False, if_true, List.map_cons, List.sum_cons, Bool.false_eq_true, if_false]
      congr 1
      ring
    · subst hx
      simp only [Metrics.profitStep, gt_iff_lt, lt_self_iff_false, if_false, ih, abs_zero,
        add_zero, List.filter_cons, decide_False, Bool.false_eq_true]
    · have h2 : ¬ x < 0 := not_lt.mpr hx.le
      simp only [Metrics.profitStep, gt_iff_lt, if_pos hx, ih, List.filter_cons, h2, hx,
        decide_True, decide_False, if_true, List.sum_cons, Bool.false_eq_true, if_false]
      congr 1
      ring

theorem calculateProfitFactor_eq (returns : List ℚ) (hne : returns ≠ []) :
    Metrics.calculateProfitFactor returns =
      Except.ok
        (if ((returns.filter (fun r => decide (r < 0))).map (fun r => |r|)).sum = 0 then 0
         else (returns.filter (fun r => decide (0 < r))).sum /
           ((returns.filter (fun r => decide (r < 0))).map (fun r => |r|)).sum) := by
  simp only [Metrics.calculateProfitFactor, isEmpty_eq_false_of_ne_nil returns hne,
    foldl_profitStep, zero_add, Bool.false_eq_true, if_false]

/-- C16: on a non-empty series `calculateProfitFactor` returns the sum of the positive
returns over the sum of the absolute values of the negative ones, and 0 when no return is
negative; on the empty series it throws (`invalid_argument`, the spec's EmptyInput).  On
`[0.01, -0.02, 0.03, -0.01]` it returns 4/3 and `calculateWinRate` returns 1/2. -/
theorem profitFactor_gains_over_losses (returns : List ℚ) :
    (returns ≠ [] → (∃ r ∈ returns, r < 0) →
      Metrics.calculateProfitFactor returns =
        Except.ok ((returns.filter (fun r => decide (0 < r))).sum /
          ((returns.filter (fun r => decide (r < 0))).map (fun r => |r|)).sum)) ∧
    (returns ≠ [] → (∀ r ∈ returns, ¬ r < 0) →
      Metrics.calculateProfitFactor returns = Except.ok 0) ∧
    Metrics.calculateProfitFactor [] =
      Except.error (Exn.invalid_argument "Returns vector cannot be empty.") ∧
    Metrics.calculateProfitFactor [1 / 100, -2 / 100, 3 / 100, -1 / 100] =
      Except.ok (4 / 3) ∧
    Metrics.calculateWinRate [1 / 100, -2 / 100, 3 / 100, -1 / 100] = Except.ok (1 / 2) := by
  refine ⟨?_, ?_, rfl, by decide!, by decide!⟩
  · rintro hne ⟨r, hr, hneg⟩
    rw [calculateProfitFactor_eq returns hne]
    have hmem : |r| ∈ (returns.filter (fun r => decide (r < 0))).map (fun r => |r|) := by
      refine List.mem_map.mpr ⟨r, ?_, rfl⟩
      simp only [List.mem_filter, decide_eq_true_eq]
      exact ⟨hr, hneg⟩
    have hnonneg : ∀ x ∈ (returns.filter (fun r => decide (r < 0))).map (fun r => |r|),
        0 ≤ x := by
      intro x hx
      obtain ⟨y, _, rfl⟩ := List.mem_map.mp hx
      exact abs_nonneg y
    have hle := List.single_le_sum hnonneg _ hmem
    have hpos : 0 < |r| := abs_pos.mpr hneg.ne
    rw [if_neg (lt_of_lt_of_le hpos hle).ne.symm]
  · intro hne hall
    rw [calculateProfitFactor_eq returns hne]
    have hnil : returns.filter (fun r => decide (r < 0)) = [] := by
      rw [List.filter_eq_nil_iff]
      intro r hr
      simpa using hall r hr
    simp only [hnil, List.map_nil, List.sum_nil, if_true]

/-- Scenario C: the series `[0.01, -0.02, 0.03, -0.01]` is non-empty and has a negative
return; its gains sum to 4/100 and its losses to 3/100. -/
theorem profitFactor_gains_over_losses_witness :
    ([1 / 100, -2 / 100, 3 / 100, -1 / 100] : List ℚ) ≠ [] ∧
    (∃ r ∈ ([1 / 100, -2 / 100, 3 / 100, -1 / 100] : List ℚ), r < 0) ∧
    Metrics.calculateProfitFactor [1 / 100, -2 / 100, 3 / 100, -1 / 100] =
      Except.ok
        ((([1 / 100, -2 / 100, 3 / 100, -1 / 100] : List ℚ).filter
            (fun r => decide (0 < r))).sum /
          ((([1 / 100, -2 / 100, 3 / 100, -1 / 100] : List ℚ).filter
            (fun r => decide (r < 0))).map (fun r => |r|)).sum) :=
  ⟨by decide, ⟨-2 / 100, by decide!, by norm_num⟩,
   (profitFactor_gains_over_losses [1 / 100, -2 / 100, 3 / 100, -1 / 100]).1
     (by decide) ⟨-2 / 100, by decide!, by norm_num⟩⟩

theorem toSizeT_of_nonneg (w : ℤ) (h0 : 0 ≤ w) (h1 : w < (Metrics.sizeModulus : ℤ)) :
    Metrics.toSizeT w = w.toNat := by
  unfold Metrics.toSizeT
  rw [Int.emod_eq_of_lt h0 h1]

theorem rollingLoop_in_bounds (curve : List ℚ) (w : ℕ) (hw : 1 ≤ w)
    (hsize : curve.length < Metrics.sizeModulus) :
    ∀ (k i : ℕ) (acc : List ℚ), i + k + w ≤ curve.length + 1 →
      Metrics.rollingLoop curve w k i acc =
        Metrics.Rolling.done
          (acc ++ (List.range k).map (fun t =>
            (curve.getD (i + t + w - 1) 0 - curve.getD (i + t) 0) / curve.getD (i + t) 0)) := by
  intro k
  induction k with
  | zero => intro i acc _; simp [Metrics.rollingLoop]
  | succ k ih =>
    intro i acc hb
    have hi : i < curve.length := by omega
    have hj : i + w - 1 < curve.length := by omega
    have hjmod : (i + w + (Metrics.sizeModulus - 1)) % Metrics.sizeModulus = i + w - 1 := by
      have h1 : i + w + (Metrics.sizeModulus - 1) = (i + w - 1) + Metrics.sizeModulus := by
        have : 0 < Metrics.sizeModulus := by unfold Metrics.sizeModulus; positivity
        omega
      rw [h1, Nat.add_mod_right, Nat.mod_eq_of_lt (by omega)]
    simp only [Metrics.rollingLoop, hjmod, List.getElem?_eq_getElem hi,
      List.getElem?_eq_getElem hj]
    rw [ih (i + 1) _ (by omega)]
    refine congrArg Metrics.Rolling.done ?_
    rw [List.range_succ_eq_map, List.map_cons, List.map_map, List.append_assoc]
    refine congrArg (fun l => acc ++ l) ?_
    simp only [List.singleton_append, add_zero, List.getD_eq_getElem curve 0 hi,
      List.getD_eq_getElem curve 0 hj]
    refine congrArg (fun l => _ :: l) ?_
    apply List.map_congr_left
    intro t _
    simp only [Function.comp, Nat.succ_eq_add_one]
    have e1 : i + 1 + t = i + (t + 1) := by ring
    rw [e1]

/-- C17: for a curve of length `n` and an `int` window `w` with `1 ≤ w ≤ n`,
`calculateRollingReturns` returns exactly `n - w + 1` values, the `i`-th being
`(curve[i + w - 1] - curve[i]) / curve[i]`; for `w > n` it throws (`invalid_argument`, the
spec's InvalidWindow).  The length is a `size_t` and `w` an `int`. -/
theorem rollingReturns_every_window (curve : List ℚ) (w : ℤ)
    (hsize : curve.length < Metrics.sizeModulus) (hint : w ≤ 2147483647) :
    (1 ≤ w → w ≤ (curve.length : ℤ) →
      ∃ out, Metrics.calculateRollingReturns curve w = Metrics.Rolling.done out ∧
        out.length = curve.length - w.toNat + 1 ∧
        ∀ i, i ≤ curve.length - w.toNat →
          out.getD i 0 =
            (curve.getD (i + w.toNat - 1) 0 - curve.getD i 0) / curve.getD i 0) ∧
    ((curve.length : ℤ) < w →
      Metrics.calculateRollingReturns curve w =
        Metrics.Rolling.thrown (Exn.invalid_argument
          "Equity curve size must be greater than or equal to the window size.")) := by
  have hmod : (2147483647 : ℤ) < (Metrics.sizeModulus : ℤ) := by
    unfold Metrics.sizeModulus; norm_num
  constructor
  · intro h1 h2
    have hw : Metrics.toSizeT w = w.toNat := toSizeT_of_nonneg w (by omega) (by omega)
    have hwn : w.toNat ≤ curve.length := by omega
    have hw1 : 1 ≤ w.toNat := by omega
    have hbound : (curve.length + (Metrics.sizeModulus - w.toNat)) % Metrics.sizeModulus
        = curve.length - w.toNat := by
      have e : curve.length + (Metrics.sizeModulus - w.toNat)
          = (curve.length - w.toNat) + Metrics.sizeModulus := by omega
      rw [e, Nat.add_mod_right, Nat.mod_eq_of_lt (by omega)]
    simp only [Metrics.calculateRollingReturns, hw, if_neg (not_lt.mpr hwn), hbound]
    rw [rollingLoop_in_bounds curve w.toNat hw1 hsize _ 0 [] (by omega)]
    refine ⟨_, rfl, ?_, ?_⟩
    · simp
    · intro i hi
      simp only [List.nil_append, zero_add]
      rw [List.getD_eq_getElem _ 0 (by simp; omega)]
      simp
  · intro h
    have hw : Metrics.toSizeT w = w.toNat := toSizeT_of_nonneg w (by omega) (by omega)
    have hlt : curve.length < w.toNat := by omega
    simp only [Metrics.calculateRollingReturns, hw, if_pos hlt]

/-- Scenario B's curve with window 2: three windows, returns 1/5, -1/4 and 2/3; with
window 5 the call throws. -/
theorem rollingReturns_every_window_witness :
    ([100, 120, 90, 150] : List ℚ).length < Metrics.sizeModulus ∧
    (2 : ℤ) ≤ 2147483647 ∧
    Metrics.calculateRollingReturns [100, 120, 90, 150] 2 =
      Metrics.Rolling.done [1 / 5, -1 / 4, 2 / 3] ∧
    ∃ out, Metrics.calculateRollingReturns [100, 120, 90, 150] 2 = Metrics.Rolling.done out ∧
      out.length = ([100, 120, 90, 150] : List ℚ).length - (2 : ℤ).toNat + 1 ∧
      ∀ i, i ≤ ([100, 120, 90, 150] : List ℚ).length - (2 : ℤ).toNat →
        out.getD i 0 =
          (([100, 120, 90, 150] : List ℚ).getD (i + (2 : ℤ).toNat - 1) 0 -
            ([100, 120, 90, 150] : List ℚ).getD i 0) / ([100, 120, 90, 150] : List ℚ).getD i 0 :=
  ⟨by decide!, by decide, by decide!,
   (rollingReturns_every_window [100, 120, 90, 150] 2 (by decide!) (by decide)).1
     (by decide) (by decide)⟩

/-! ## Lemmas about `strategies.h` and `strategyEngine.cpp` -/

/-- The deque after `onData`: the close is pushed and the front popped when the deque
outgrows the long window; the windows stay. -/
theorem onData_self (s : MovingAverageStrategy) (p : Portfolio) (ts : String)
    (d : TimeSeriesData) :
    (s.onData p ts d).self =
      { s with prices :=
          if (s.prices ++ [d.close]).length > s.longWindow then (s.prices ++ [d.close]).tail
          else s.prices ++ [d.close] } := by
  simp only [MovingAverageStrategy.onData]
  split_ifs <;> rfl

theorem trim_eq_drop (prices : List ℚ) (c : ℚ) (lw : ℕ) (hlen : prices.length ≤ lw) :
    (if (prices ++ [c]).length > lw then (prices ++ [c]).tail else prices ++ [c]) =
      (prices ++ [c]).drop ((prices ++ [c]).length - lw) := by
  have hl : (prices ++ [c]).length = prices.length + 1 := by simp
  split_ifs with h
  · have : (prices ++ [c]).length - lw = 1 := by omega
    rw [this, List.drop_one]
  · have : (prices ++ [c]).length - lw = 0 := by omega
    rw [this, List.drop_zero]

theorem fed_prices_aux (lw : ℕ) (calls : List (Portfolio × String × TimeSeriesData)) :
    ∀ s : MovingAverageStrategy, s.longWindow = lw → s.prices.length ≤ lw →
      (s.fed calls).shortWindow = s.shortWindow ∧ (s.fed calls).longWindow = lw ∧
      (s.fed calls).prices =
        (s.prices ++ calls.map (fun c => c.2.2.close)).drop
          ((s.prices ++ calls.map (fun c => c.2.2.close)).length - lw) := by
  induction calls with
  | nil =>
    intro s hlw hlen
    refine ⟨rfl, hlw, ?_⟩
    simp only [MovingAverageStrategy.fed, List.foldl_nil, List.map_nil, List.append_nil]
    have : s.prices.length - lw = 0 := by omega
    rw [this, List.drop_zero]
  | cons c calls ih =>
    intro s hlw hlen
    subst hlw
    have hstep : s.fed (c :: calls) = ((s.onData c.1 c.2.1 c.2.2).self).fed calls := rfl
    rw [hstep, onData_self, trim_eq_drop s.prices c.2.2.close s.longWindow hlen]
    have hl : (s.prices ++ [c.2.2.close]).length = s.prices.length + 1 := by simp
    obtain ⟨h1, h2, h3⟩ := ih
      { s with prices := (List.drop ((s.prices ++ [c.2.2.close]).length - s.longWindow)
          (s.prices ++ [c.2.2.close])) } rfl
      (by simp only [List.length_drop]; omega)
    refine ⟨h1, h2, ?_⟩
    rw [h3]
    simp only [List.map_cons]
    have e : s.prices ++ c.2.2.close :: calls.map (fun c => c.2.2.close)
        = (s.prices ++ [c.2.2.close]) ++ calls.map (fun c => c.2.2.close) := by simp
    rw [e]
    generalize (s.prices ++ [c.2.2.close]) = L at hl ⊢
    generalize calls.map (fun c => c.2.2.close) = R
    have hle : L.length - s.longWindow ≤ L.length := Nat.sub_le _ _
    rw [← List.drop_append_of_le_length hle, List.drop_drop]
    congr 1
    simp only [List.length_append, List.length_drop]
    omega

theorem fed_snoc (s : MovingAverageStrategy)
    (calls : List (Portfolio × String × TimeSeriesData)) (p : Portfolio) (ts : String)
    (d : TimeSeriesData) :
    s.fed (calls ++ [(p, ts, d)]) = ((s.fed calls).onData p ts d).self := by
  simp only [MovingAverageStrategy.fed, List.foldl_append, List.foldl_cons, List.foldl_nil]

/-- The state of the strategy along a run from an empty deque: the windows stay, and
the deque holds the last `lw` closes. -/
theorem fed_from_empty (sw lw : ℕ) (calls : List (Portfolio × String × TimeSeriesData)) :
    (MovingAverageStrategy.fed ⟨[], sw, lw⟩ calls).shortWindow = sw ∧
    (MovingAverageStrategy.fed ⟨[], sw, lw⟩ calls).longWindow = lw ∧
    (MovingAverageStrategy.fed ⟨[], sw, lw⟩ calls).prices =
      (calls.map (fun c => c.2.2.close)).drop ((calls.map (fun c => c.2.2.close)).length - lw) := by
  have h := fed_prices_aux lw calls ⟨[], sw, lw⟩ rfl (Nat.zero_le _)
  simpa using h

theorem calculateMovingAverage_eq (data : List ℚ) (w : ℕ) :
    MovingAverageStrategy.calculateMovingAverage data w = meanOfLast w data := by
  simp only [MovingAverageStrategy.calculateMovingAverage, accumulate_eq_sum, meanOfLast]

theorem meanOfLast_drop (closes : List ℚ) (m lw : ℕ) (hm : m ≤ lw) (hk : lw ≤ closes.length) :
    meanOfLast m (closes.drop (closes.length - lw)) = meanOfLast m closes := by
  simp only [meanOfLast, List.length_drop, List.drop_drop]
  congr 3
  omega

/-- `onData` in terms of the deque `P` it computes first. -/
theorem onData_of_prices (s : MovingAverageStrategy) (p : Portfolio) (ts : String)
    (d : TimeSeriesData) (P : List ℚ)
    (hP : (s.onData p ts d).self.prices = P) :
    (P.length < s.longWindow →
      (s.onData p ts d).thrown = none ∧ (s.onData p ts d).log = [] ∧
      (s.onData p ts d).portfolio = p) ∧
    (s.longWindow ≤ P.length → meanOfLast s.shortWindow P > meanOfLast s.longWindow P →
      (s.onData p ts d).thrown = (MovingAverageStrategy.executeBuySignal p ts d.close).thrown ∧
      (s.onData p ts d).log =
        LogLine.movingAverages ts (meanOfLast s.shortWindow P) (meanOfLast s.longWindow P) ::
          (MovingAverageStrategy.executeBuySignal p ts d.close).log ∧
      (s.onData p ts d).portfolio =
        (MovingAverageStrategy.executeBuySignal p ts d.close).portfolio) ∧
    (s.longWindow ≤ P.length → meanOfLast s.shortWindow P < meanOfLast s.longWindow P →
      (s.onData p ts d).thrown = (MovingAverageStrategy.executeSellSignal p ts d.close).thrown ∧
      (s.onData p ts d).log =
        LogLine.movingAverages ts (meanOfLast s.shortWindow P) (meanOfLast s.longWindow P) ::
          (MovingAverageStrategy.executeSellSignal p ts d.close).log ∧
      (s.onData p ts d).portfolio =
        (MovingAverageStrategy.executeSellSignal p ts d.close).portfolio) ∧
    (s.longWindow ≤ P.length → meanOfLast s.shortWindow P = meanOfLast s.longWindow P →
      (s.onData p ts d).thrown = none ∧
      (s.onData p ts d).log =
        [LogLine.movingAverages ts (meanOfLast s.shortWindow P) (meanOfLast s.longWindow P)] ∧
      (s.onData p ts d).portfolio = p) := by
  rw [onData_self] at hP
  simp only at hP
  subst hP
  simp only [MovingAverageStrategy.onData, calculateMovingAverage_eq]
  refine ⟨?_, ?_, ?_, ?_⟩
  · intro h
    rw [if_neg (not_le.mpr h)]
    exact ⟨rfl, rfl, rfl⟩
  · intro h hgt
    rw [if_pos h, if_pos hgt]
    exact ⟨rfl, rfl, rfl⟩
  · intro h hlt
    rw [if_pos h, if_neg (not_lt.mpr hlt.le), if_pos hlt]
    exact ⟨rfl, rfl, rfl⟩
  · intro h heq
    rw [if_pos h, if_neg (by rw [heq]; exact lt_irrefl _), if_neg (by rw [heq]; exact lt_irrefl _)]
    exact ⟨rfl, rfl, rfl⟩

theorem executeBuySignal_portfolio (p : Portfolio) (ts : String) (c : ℚ) :
    (MovingAverageStrategy.executeBuySignal p ts c).portfolio =
      (if p.getCash ≥ c * 10 then (p.buy "SPY" 10 c).state else p) := by
  simp only [MovingAverageStrategy.executeBuySignal, Int.cast_ofNat]
  by_cases h : p.getCash ≥ c * 10
  · rw [if_pos h, if_pos h]
    cases (p.buy "SPY" 10 c).thrown <;> rfl
  · rw [if_neg h, if_neg h]

theorem executeSellSignal_portfolio (p : Portfolio) (ts : String) (c : ℚ) :
    (MovingAverageStrategy.executeSellSignal p ts c).portfolio =
      (if p.getPosition "SPY" ≥ 10 then (p.sell "SPY" 10 c).state else p) := by
  simp only [MovingAverageStrategy.executeSellSignal]
  by_cases h : p.getPosition "SPY" ≥ 10
  · rw [if_pos h, if_pos h]
    cases (p.sell "SPY" 10 c).thrown <;> rfl
  · rw [if_neg h, if_neg h]

theorem scenarioD_bar1 (p : Portfolio) :
    strategyD.onData p "t1" (flatBar 10) = ⟨none, [], ⟨[10], 2, 3⟩, p⟩ := by
  simp [MovingAverageStrategy.onData, strategyD, flatBar]

theorem scenarioD_bar2 (p : Portfolio) :
    MovingAverageStrategy.onData ⟨[10], 2, 3⟩ p "t2" (flatBar 10) =
      ⟨none, [], ⟨[10, 10], 2, 3⟩, p⟩ := by
  simp [MovingAverageStrategy.onData, flatBar]

theorem scenarioD_bar3 (p : Portfolio) :
    MovingAverageStrategy.onData ⟨[10, 10], 2, 3⟩ p "t3" (flatBar 10) =
      ⟨none, [LogLine.movingAverages "t3" 10 10], ⟨[10, 10, 10], 2, 3⟩, p⟩ := by
  simp [MovingAverageStrategy.onData, flatBar, MovingAverageStrategy.calculateMovingAverage,
    Metrics.accumulate]
  norm_num

theorem scenarioD_bar4 (p : Portfolio) (hcash : 120 ≤ p.cash) :
    MovingAverageStrategy.onData ⟨[10, 10, 10], 2, 3⟩ p "t4" (flatBar 12) =
      ⟨none, [LogLine.movingAverages "t4" 11 (32 / 3), LogLine.buyExecuted "t4"],
        ⟨[10, 10, 12], 2, 3⟩, (p.buy "SPY" 10 12).state⟩ := by
  have hb : (p.buy "SPY" 10 12).thrown = none := by
    rw [buy_result p "SPY" 10 12 (by decide) (by norm_num) (by norm_num; exact hcash)]
  have hge : p.getCash ≥ 12 * ((10 : ℤ) : ℚ) := by
    show p.cash ≥ 12 * ((10 : ℤ) : ℚ); norm_num; exact hcash
  have hx : MovingAverageStrategy.executeBuySignal p "t4" 12 =
      ⟨none, [LogLine.buyExecuted "t4"], (p.buy "SPY" 10 12).state⟩ := by
    simp only [MovingAverageStrategy.executeBuySignal, if_pos hge, hb]
  have h1 : MovingAverageStrategy.calculateMovingAverage [10, 10, 12] 2 = 11 := by
    norm_num [MovingAverageStrategy.calculateMovingAverage, Metrics.accumulate]
  have h2 : MovingAverageStrategy.calculateMovingAverage [10, 10, 12] 3 = 32 / 3 := by
    norm_num [MovingAverageStrategy.calculateMovingAverage, Metrics.accumulate]
  simp [MovingAverageStrategy.onData, flatBar, h1, h2, hx]
  norm_num

theorem scenarioD_bar5 (p : Portfolio) :
    MovingAverageStrategy.onData ⟨[10, 10, 12], 2, 3⟩ p "t5" (flatBar 8) =
      ⟨none, [LogLine.movingAverages "t5" 10 10], ⟨[10, 12, 8], 2, 3⟩, p⟩ := by
  simp [MovingAverageStrategy.onData, flatBar, MovingAverageStrategy.calculateMovingAverage,
    Metrics.accumulate]
  norm_num

theorem updateNetWorth_thrown (p : Portfolio) (m : SymMap ℚ) : (p.updateNetWorth m).thrown = none :=
  (updateNetWorth_frame p m).1
theorem updateNetWorth_cash (p : Portfolio) (m : SymMap ℚ) : (p.updateNetWorth m).state.cash = p.cash :=
  (updateNetWorth_frame p m).2.1
theorem updateNetWorth_getPosition (p : Portfolio) (m : SymMap ℚ) (s : String) :
    (p.updateNetWorth m).state.getPosition s = p.getPosition s := by
  simp only [Portfolio.getPosition, (updateNetWorth_frame p m).2.2.1]

/-- Scenario D on any ledger with cash for one lot at 12: what is logged, and the cash
and the position afterwards. -/
theorem scenarioD_run (p : Portfolio) (hcash : 120 ≤ p.cash) :
    (runBacktest MovingAverageStrategy.asStrategy seriesD strategyD p).log =
      [LogLine.starting, LogLine.movingAverages "t3" 10 10,
       LogLine.movingAverages "t4" 11 (32 / 3), LogLine.buyExecuted "t4",
       LogLine.movingAverages "t5" 10 10, LogLine.complete] ∧
    (runBacktest MovingAverageStrategy.asStrategy seriesD strategyD p).portfolio.cash =
      p.cash - 10 * 12 ∧
    (runBacktest MovingAverageStrategy.asStrategy seriesD strategyD p).portfolio.getPosition "SPY" =
      wrapInt (p.getPosition "SPY" + 10) := by
  have h4 : ∀ q : Portfolio, q.cash = p.cash →
      MovingAverageStrategy.onData ⟨[10, 10, 10], 2, 3⟩ q "t4" (flatBar 12) =
      ⟨none, [LogLine.movingAverages "t4" 11 (32 / 3), LogLine.buyExecuted "t4"],
        ⟨[10, 10, 12], 2, 3⟩, (q.buy "SPY" 10 12).state⟩ :=
    fun q hq => scenarioD_bar4 q (by rw [hq]; exact hcash)
  have hbuy : ∀ q : Portfolio, q.cash = p.cash → q.getPosition "SPY" = p.getPosition "SPY" →
      (q.buy "SPY" 10 12).state.cash = p.cash - 10 * 12 ∧
      (q.buy "SPY" 10 12).state.getPosition "SPY" = wrapInt (p.getPosition "SPY" + 10) := by
    intro q hq hpos
    rw [buy_result q "SPY" 10 12 (by decide) (by norm_num) (by rw [hq]; norm_num; exact hcash)]
    constructor
    · simp only [hq]; norm_num
    · rw [← hpos, getPosition_eq_getD q]
      simp only [Portfolio.getPosition, AList.lookup_insert]
  have c3 : ((((p.updateNetWorth (flatBar 10).toMarketData).state.updateNetWorth
      (flatBar 10).toMarketData).state.updateNetWorth (flatBar 10).toMarketData).state).cash
      = p.cash := by
    simp only [updateNetWorth_cash]
  have g3 : ((((p.updateNetWorth (flatBar 10).toMarketData).state.updateNetWorth
      (flatBar 10).toMarketData).state.updateNetWorth
      (flatBar 10).toMarketData).state).getPosition "SPY" = p.getPosition "SPY" := by
    simp only [updateNetWorth_getPosition]
  have e1 := h4 _ c3
  have e2 := hbuy _ c3 g3
  simp only [runBacktest, replay, seriesD, MovingAverageStrategy.asStrategy,
    MovingAverageStrategy.onStart, MovingAverageStrategy.onEnd, scenarioD_bar1, scenarioD_bar2, scenarioD_bar3, e1,
    scenarioD_bar5, updateNetWorth_thrown, updateNetWorth_cash, updateNetWorth_getPosition, e2, List.nil_append, List.cons_append,
    List.append_nil, and_self]

/-- C18: let a `MovingAverageStrategy` with windows `1 ≤ sw ≤ lw` (which the constructor
accepts) have been fed any bars, and let `closes` be the closes seen up to and including
the current bar, `k` of them.  If `k < lw`, `onData` logs nothing and leaves the ledger
alone.  If `k ≥ lw`, with `shortMA` and `longMA` the means of the last `sw` and `lw`
closes: `shortMA > longMA` runs `executeBuySignal`, `shortMA < longMA` runs
`executeSellSignal`, equality does neither; the two signals trade 10 shares of `SPY` at
the current close when they trade.  With windows 2 and 3 and closes `[10,10,10,12,8]`,
replayed on any ledger with cash for the lot, the only trade is the buy at close 12: the
cash drops by 120 and the `SPY` count becomes the old count plus 10, as an `int`. -/
theorem movingAverage_crossover_signal (sw lw : ℕ) (hsw : 1 ≤ sw) (hlw : sw ≤ lw)
    (calls : List (Portfolio × String × TimeSeriesData)) (p : Portfolio) (ts : String)
    (d : TimeSeriesData) :
    MovingAverageStrategy.create sw lw = Except.ok ⟨[], sw, lw⟩ ∧
    ((calls.map (fun c => c.2.2.close) ++ [d.close]).length < lw →
      ((MovingAverageStrategy.fed ⟨[], sw, lw⟩ calls).onData p ts d).thrown = none ∧
      ((MovingAverageStrategy.fed ⟨[], sw, lw⟩ calls).onData p ts d).log = [] ∧
      ((MovingAverageStrategy.fed ⟨[], sw, lw⟩ calls).onData p ts d).portfolio = p) ∧
    (lw ≤ (calls.map (fun c => c.2.2.close) ++ [d.close]).length →
      meanOfLast sw (calls.map (fun c => c.2.2.close) ++ [d.close]) >
        meanOfLast lw (calls.map (fun c => c.2.2.close) ++ [d.close]) →
      ((MovingAverageStrategy.fed ⟨[], sw, lw⟩ calls).onData p ts d).thrown =
        (MovingAverageStrategy.executeBuySignal p ts d.close).thrown ∧
      ((MovingAverageStrategy.fed ⟨[], sw, lw⟩ calls).onData p ts d).log =
        LogLine.movingAverages ts
            (meanOfLast sw (calls.map (fun c => c.2.2.close) ++ [d.close]))
            (meanOfLast lw (calls.map (fun c => c.2.2.close) ++ [d.close])) ::
          (MovingAverageStrategy.executeBuySignal p ts d.close).log ∧
      ((MovingAverageStrategy.fed ⟨[], sw, lw⟩ calls).onData p ts d).portfolio =
        (MovingAverageStrategy.executeBuySignal p ts d.close).portfolio) ∧
    (lw ≤ (calls.map (fun c => c.2.2.close) ++ [d.close]).length →
      meanOfLast sw (calls.map (fun c => c.2.2.close) ++ [d.close]) <
        meanOfLast lw (calls.map (fun c => c.2.2.close) ++ [d.close]) →
      ((MovingAverageStrategy.fed ⟨[], sw, lw⟩ calls).onData p ts d).thrown =
        (MovingAverageStrategy.executeSellSignal p ts d.close).thrown ∧
      ((MovingAverageStrategy.fed ⟨[], sw, lw⟩ calls).onData p ts d).log =
        LogLine.movingAverages ts
            (meanOfLast sw (calls.map (fun c => c.2.2.close) ++ [d.close]))
            (meanOfLast lw (calls.map (fun c => c.2.2.close) ++ [d.close])) ::
          (MovingAverageStrategy.executeSellSignal p ts d.close).log ∧
      ((MovingAverageStrategy.fed ⟨[], sw, lw⟩ calls).onData p ts d).portfolio =
        (MovingAverageStrategy.executeSellSignal p ts d.close).portfolio) ∧
    (lw ≤ (calls.map (fun c => c.2.2.close) ++ [d.close]).length →
      meanOfLast sw (calls.map (fun c => c.2.2.close) ++ [d.close]) =
        meanOfLast lw (calls.map (fun c => c.2.2.close) ++ [d.close]) →
      ((MovingAverageStrategy.fed ⟨[], sw, lw⟩ calls).onData p ts d).thrown = none ∧
      ((MovingAverageStrategy.fed ⟨[], sw, lw⟩ calls).onData p ts d).log =
        [LogLine.movingAverages ts
            (meanOfLast sw (calls.map (fun c => c.2.2.close) ++ [d.close]))
            (meanOfLast lw (calls.map (fun c => c.2.2.close) ++ [d.close]))] ∧
      ((MovingAverageStrategy.fed ⟨[], sw, lw⟩ calls).onData p ts d).portfolio = p) ∧
    (MovingAverageStrategy.executeBuySignal p ts d.close).portfolio =
      (if p.getCash ≥ d.close * 10 then (p.buy "SPY" 10 d.close).state else p) ∧
    (MovingAverageStrategy.executeSellSignal p ts d.close).portfolio =
      (if p.getPosition "SPY" ≥ 10 then (p.sell "SPY" 10 d.close).state else p) ∧
    (∀ q : Portfolio, 10 * 12 ≤ q.cash →
      (runBacktest MovingAverageStrategy.asStrategy seriesD strategyD q).log =
        [LogLine.starting, LogLine.movingAverages "t3" 10 10,
         LogLine.movingAverages "t4" 11 (32 / 3), LogLine.buyExecuted "t4",
         LogLine.movingAverages "t5" 10 10, LogLine.complete] ∧
      (runBacktest MovingAverageStrategy.asStrategy seriesD strategyD q).portfolio.cash =
        q.cash - 10 * 12 ∧
      (runBacktest MovingAverageStrategy.asStrategy seriesD strategyD q).portfolio.getPosition
        "SPY" = wrapInt (q.getPosition "SPY" + 10)) := by
  have hcreate : MovingAverageStrategy.create sw lw = Except.ok ⟨[], sw, lw⟩ := by
    have : ¬ (sw ≤ 0 ∨ lw ≤ 0 ∨ sw > lw) := by omega
    simp only [MovingAverageStrategy.create, if_neg this]
  obtain ⟨h1, h2, _⟩ := fed_from_empty sw lw calls
  obtain ⟨_, _, h3⟩ := fed_from_empty sw lw (calls ++ [(p, ts, d)])
  rw [fed_snoc] at h3
  simp only [List.map_append, List.map_cons, List.map_nil] at h3
  have key := onData_of_prices (MovingAverageStrategy.fed ⟨[], sw, lw⟩ calls) p ts d _ h3
  rw [h1, h2] at key
  obtain ⟨k1, k2, k3, k4⟩ := key
  generalize hc : calls.map (fun c => c.2.2.close) ++ [d.close] = closes at k1 k2 k3 k4 ⊢
  have hlen : lw ≤ closes.length →
      (closes.drop (closes.length - lw)).length = lw := by
    intro h; rw [List.length_drop]; omega
  have hms : lw ≤ closes.length →
      meanOfLast sw (closes.drop (closes.length - lw)) = meanOfLast sw closes :=
    fun h => meanOfLast_drop closes sw lw hlw h
  have hml : lw ≤ closes.length →
      meanOfLast lw (closes.drop (closes.length - lw)) = meanOfLast lw closes :=
    fun h => meanOfLast_drop closes lw lw (le_refl _) h
  refine ⟨hcreate, ?_, ?_, ?_, ?_, ?_, ?_,
    fun q hq => scenarioD_run q (by norm_num at hq; exact hq)⟩
  · intro h
    apply k1
    rw [List.length_drop]; omega
  · intro h hgt
    have := k2 (hlen h).ge (by rw [hms h, hml h]; exact hgt)
    rw [hms h, hml h] at this
    exact this
  · intro h hlt
    have := k3 (hlen h).ge (by rw [hms h, hml h]; exact hlt)
    rw [hms h, hml h] at this
    exact this
  · intro h heq
    have := k4 (hlen h).ge (by rw [hms h, hml h]; exact heq)
    rw [hms h, hml h] at this
    exact this
  · exact executeBuySignal_portfolio p ts d.close
  · exact executeSellSignal_portfolio p ts d.close

/-- Scenario D at its fourth bar (close 12): the windows 2 and 3 are admissible, the
means are 11 and 32/3, and `onData` runs the buy signal. -/
theorem movingAverage_crossover_signal_witness :
    1 ≤ 2 ∧ 2 ≤ 3 ∧
    meanOfLast 2 (callsD.map (fun c => c.2.2.close) ++ [(flatBar 12).close]) = 11 ∧
    meanOfLast 3 (callsD.map (fun c => c.2.2.close) ++ [(flatBar 12).close]) = 32 / 3 ∧
    ((MovingAverageStrategy.fed ⟨[], 2, 3⟩ callsD).onData ledgerA "t4" (flatBar 12)).portfolio =
      (MovingAverageStrategy.executeBuySignal ledgerA "t4" (flatBar 12).close).portfolio :=
  ⟨by decide, by decide, by decide!, by decide!,
   ((movingAverage_crossover_signal 2 3 (by decide) (by decide) callsD ledgerA "t4"
      (flatBar 12)).2.2.1 (by decide) (by decide!)).2.2⟩

theorem executeBuySignal_of_positive (p : Portfolio) (ts : String) (c : ℚ) (hc : 0 < c) :
    (MovingAverageStrategy.executeBuySignal p ts c).thrown = none ∧
    (p.getCash ≥ 10 * c →
      (p.buy "SPY" 10 c).thrown = none ∧
      (MovingAverageStrategy.executeBuySignal p ts c).portfolio = (p.buy "SPY" 10 c).state ∧
      (MovingAverageStrategy.executeBuySignal p ts c).log = [LogLine.buyExecuted ts]) ∧
    (¬ p.getCash ≥ 10 * c →
      (MovingAverageStrategy.executeBuySignal p ts c).portfolio = p ∧
      (MovingAverageStrategy.executeBuySignal p ts c).log = [LogLine.buySkipped ts]) := by
  have hbuy : p.getCash ≥ 10 * c → (p.buy "SPY" 10 c).thrown = none := by
    intro h
    have hcash : ((10 : ℤ) : ℚ) * c ≤ p.cash := by
      simpa [Portfolio.getCash] using h
    rw [buy_result p "SPY" 10 c (by decide) hc hcash]
  simp only [MovingAverageStrategy.executeBuySignal, Int.cast_ofNat, mul_comm c 10]
  by_cases h : p.getCash ≥ 10 * c
  · simp only [if_pos h, hbuy h]
    simp [h]
  · simp only [if_neg h]
    simp [h]

theorem executeSellSignal_of_positive (p : Portfolio) (ts : String) (c : ℚ) (hc : 0 < c) :
    (MovingAverageStrategy.executeSellSignal p ts c).thrown = none ∧
    (p.getPosition "SPY" ≥ 10 →
      (p.sell "SPY" 10 c).thrown = none ∧
      (MovingAverageStrategy.executeSellSignal p ts c).portfolio = (p.sell "SPY" 10 c).state ∧
      (MovingAverageStrategy.executeSellSignal p ts c).log = [LogLine.sellExecuted ts]) ∧
    (¬ p.getPosition "SPY" ≥ 10 →
      (MovingAverageStrategy.executeSellSignal p ts c).portfolio = p ∧
      (MovingAverageStrategy.executeSellSignal p ts c).log = [LogLine.sellSkipped ts]) := by
  have hsell : p.getPosition "SPY" ≥ 10 → (p.sell "SPY" 10 c).thrown = none := by
    intro h
    by_contra hne
    have hiff := (rejected_sell_iff p "SPY" 10 c).mp hne
    rcases hiff with (h1 | h1) | h1
    · exact absurd h1 (by decide)
    · exact absurd hc (not_lt.mpr h1)
    · exact absurd h (not_le.mpr h1)
  simp only [MovingAverageStrategy.executeSellSignal]
  by_cases h : p.getPosition "SPY" ≥ 10
  · simp only [if_pos h, hsell h]
    simp [h]
  · simp only [if_neg h]
    simp [h]

/-- C19: for every ledger, every strategy state and every bar with `close > 0`, `onData`
throws nothing.  Its effect on the ledger is that of no signal, of `executeBuySignal` or
of `executeSellSignal`; the buy signal calls `buy("SPY", 10, close)` only when
`cash ≥ 10 * close`, the sell signal calls `sell("SPY", 10, close)` only when at least 10
shares of `SPY` are held, these calls succeed, and otherwise the signal is logged as
skipped and the ledger is left as it was. -/
theorem movingAverage_orders_never_rejected (s : MovingAverageStrategy) (p : Portfolio)
    (ts : String) (d : TimeSeriesData) (hclose : 0 < d.close) :
    (s.onData p ts d).thrown = none ∧
    ((s.onData p ts d).portfolio = p ∨
      (s.onData p ts d).portfolio =
        (MovingAverageStrategy.executeBuySignal p ts d.close).portfolio ∨
      (s.onData p ts d).portfolio =
        (MovingAverageStrategy.executeSellSignal p ts d.close).portfolio) ∧
    (MovingAverageStrategy.executeBuySignal p ts d.close).thrown = none ∧
    (p.getCash ≥ 10 * d.close →
      (p.buy "SPY" 10 d.close).thrown = none ∧
      (MovingAverageStrategy.executeBuySignal p ts d.close).portfolio =
        (p.buy "SPY" 10 d.close).state ∧
      (MovingAverageStrategy.executeBuySignal p ts d.close).log = [LogLine.buyExecuted ts]) ∧
    (¬ p.getCash ≥ 10 * d.close →
      (MovingAverageStrategy.executeBuySignal p ts d.close).portfolio = p ∧
      (MovingAverageStrategy.executeBuySignal p ts d.close).log = [LogLine.buySkipped ts]) ∧
    (MovingAverageStrategy.executeSellSignal p ts d.close).thrown = none ∧
    (p.getPosition "SPY" ≥ 10 →
      (p.sell "SPY" 10 d.close).thrown = none ∧
      (MovingAverageStrategy.executeSellSignal p ts d.close).portfolio =
        (p.sell "SPY" 10 d.close).state ∧
      (MovingAverageStrategy.executeSellSignal p ts d.close).log = [LogLine.sellExecuted ts]) ∧
    (¬ p.getPosition "SPY" ≥ 10 →
      (MovingAverageStrategy.executeSellSignal p ts d.close).portfolio = p ∧
      (MovingAverageStrategy.executeSellSignal p ts d.close).log = [LogLine.sellSkipped ts]) := by
  obtain ⟨b1, b2, b3⟩ := executeBuySignal_of_positive p ts d.close hclose
  obtain ⟨s1, s2, s3⟩ := executeSellSignal_of_positive p ts d.close hclose
  refine ⟨?_, ?_, b1, b2, b3, s1, s2, s3⟩
  · simp only [MovingAverageStrategy.onData]
    split_ifs <;> first | exact b1 | exact s1 | rfl
  · simp only [MovingAverageStrategy.onData]
    split_ifs <;>
      first
        | exact Or.inl rfl
        | exact Or.inr (Or.inl rfl)
        | exact Or.inr (Or.inr rfl)

/-- Scenario D's fourth bar has a positive close, and on the ledger funded with 100000
the strategy fed the first three bars buys without an exception. -/
theorem movingAverage_orders_never_rejected_witness :
    0 < (flatBar 12).close ∧
    ((MovingAverageStrategy.fed strategyD callsD).onData ledgerA "t4" (flatBar 12)).thrown =
      none ∧
    (ledgerA.buy "SPY" 10 (flatBar 12).close).thrown = none :=
  ⟨by decide!,
   (movingAverage_orders_never_rejected (MovingAverageStrategy.fed strategyD callsD) ledgerA
      "t4" (flatBar 12) (by decide!)).1,
   ((movingAverage_orders_never_rejected (MovingAverageStrategy.fed strategyD callsD) ledgerA
      "t4" (flatBar 12) (by decide!)).2.2.2.1 (by decide!)).1⟩

theorem updateNetWorth_curve_length (p : Portfolio) (m : SymMap ℚ) :
    (p.updateNetWorth m).state.equityCurve.length = p.equityCurve.length + 1 := by
  simp only [Portfolio.updateNetWorth]
  split_ifs <;> simp

/-- The loop of `runBacktest`, when no exception leaves it and the strategy keeps the
curves: the calls are `onData`, `updateNetWorth` for each bar in order; the curve grows by
one entry per bar; the relation between the two series is preserved. -/
theorem replay_completed {σ : Type} (S : Strategy σ) (hK : S.KeepsCurves) :
    ∀ (series : List (String × TimeSeriesData)) (s : σ) (p : Portfolio),
      (replay S series s p).thrown = none →
      (replay S series s p).calls =
        series.flatMap (fun b =>
          [EngineCall.onData b.1 b.2, EngineCall.updateNetWorth b.2.toMarketData]) ∧
      (replay S series s p).portfolio.equityCurve.length =
        p.equityCurve.length + series.length ∧
      (p.returns.length = p.equityCurve.length - 1 →
        (replay S series s p).portfolio.returns.length =
          (replay S series s p).portfolio.equityCurve.length - 1) := by
  intro series
  induction series with
  | nil => intro s p _; exact ⟨rfl, rfl, fun h => h⟩
  | cons b rest ih =>
    obtain ⟨ts, d⟩ := b
    intro s p hdone
    have hu : ((S.onData s p ts d).portfolio.updateNetWorth d.toMarketData).thrown = none :=
      (updateNetWorth_frame _ _).1
    cases hr : (S.onData s p ts d).thrown with
    | some e =>
      simp only [replay, hr] at hdone
      cases hdone
    | none =>
      simp only [replay, hr, hu] at hdone ⊢
      obtain ⟨i1, i2, i3⟩ := ih _ _ hdone
      obtain ⟨k1, k2⟩ := hK.2.1 s p ts d
      refine ⟨?_, ?_, ?_⟩
      · rw [i1, List.flatMap_cons]; rfl
      · rw [i2, updateNetWorth_curve_length, k1, List.length_cons]; omega
      · intro hp
        apply i3
        apply updateNetWorth_lengths
        rw [k1, k2]; exact hp

/-- `MovingAverageStrategy` only trades: it leaves both series of the ledger alone. -/
theorem movingAverage_keepsCurves : MovingAverageStrategy.asStrategy.KeepsCurves := by
  refine ⟨fun s p => ⟨rfl, rfl⟩, ?_, fun s p => ⟨rfl, rfl⟩⟩
  intro s p ts d
  have hb : (MovingAverageStrategy.executeBuySignal p ts d.close).portfolio.equityCurve =
        p.equityCurve ∧
      (MovingAverageStrategy.executeBuySignal p ts d.close).portfolio.returns = p.returns := by
    rw [executeBuySignal_portfolio]
    split_ifs
    · exact buy_curves p "SPY" 10 d.close
    · exact ⟨rfl, rfl⟩
  have hs : (MovingAverageStrategy.executeSellSignal p ts d.close).portfolio.equityCurve =
        p.equityCurve ∧
      (MovingAverageStrategy.executeSellSignal p ts d.close).portfolio.returns = p.returns := by
    rw [executeSellSignal_portfolio]
    split_ifs
    · exact sell_curves p "SPY" 10 d.close
    · exact ⟨rfl, rfl⟩
  show (s.onData p ts d).portfolio.equityCurve = p.equityCurve ∧
    (s.onData p ts d).portfolio.returns = p.returns
  simp only [MovingAverageStrategy.onData]
  split_ifs <;> first | exact hb | exact hs | exact ⟨rfl, rfl⟩

theorem foldl_tallyStep (l : List ℚ) (t : Metrics.Tally) :
    l.foldl Metrics.tallyStep t =
      { wins := t.wins + (l.filter (fun r => decide (0 < r))).sum
        losses := t.losses + (l.filter (fun r => decide (r < 0))).sum
        winCount := t.winCount + ((l.filter (fun r => decide (0 < r))).length : ℚ)
        lossCount := t.lossCount + ((l.filter (fun r => decide (r < 0))).length : ℚ) } := by
  induction l generalizing t with
  | nil => simp
  | cons x l ih =>
    rw [List.foldl_cons, ih]
    rcases lt_trichotomy x 0 with hx | hx | hx
    · have h2 : ¬ 0 < x := not_lt.mpr hx.le
      simp only [Metrics.tallyStep, gt_iff_lt, if_neg h2, if_pos hx, List.filter_cons, h2, hx,
        decide_True, decide_False, if_true, List.sum_cons, List.length_cons,
        Bool.false_eq_true, if_false, Nat.cast_add, Nat.cast_one]
      congr 1 <;> ring
    · subst hx
      simp only [Metrics.tallyStep, gt_iff_lt, lt_self_iff_false, if_false, List.filter_cons,
        decide_False, Bool.false_eq_true]
    · have h2 : ¬ x < 0 := not_lt.mpr hx.le
      simp only [Metrics.tallyStep, gt_iff_lt, if_pos hx, List.filter_cons, h2, hx,
        decide_True, decide_False, if_true, List.sum_cons, List.length_cons,
        Bool.false_eq_true, if_false, Nat.cast_add, Nat.cast_one]
      congr 1 <;> ring

/-- Without a zero, a series splits into its positive and its negative returns. -/
theorem split_by_sign (l : List ℚ) (hnz : ∀ r ∈ l, r ≠ 0) :
    (l.filter (fun r => decide (0 < r))).sum + (l.filter (fun r => decide (r < 0))).sum = l.sum ∧
    (l.filter (fun r => decide (0 < r))).length + (l.filter (fun r => decide (r < 0))).length =
      l.length := by
  induction l with
  | nil => simp
  | cons x l ih =>
    obtain ⟨h1, h2⟩ := ih (fun r hr => hnz r (List.mem_cons_of_mem _ hr))
    have hx0 : x ≠ 0 := hnz x (List.mem_cons_self _ _)
    rcases lt_or_gt_of_ne hx0 with hx | hx
    · have hn : ¬ 0 < x := not_lt.mpr hx.le
      simp only [List.filter_cons, hn, hx, decide_True, decide_False, if_true,
        Bool.false_eq_true, if_false, List.sum_cons, List.length_cons]
      constructor
      · rw [← h1]; ring
      · omega
    · have hn : ¬ x < 0 := not_lt.mpr hx.le
      have hx' : 0 < x := hx
      simp only [List.filter_cons, hn, hx', decide_True, decide_False, if_true,
        Bool.false_eq_true, if_false, List.sum_cons, List.length_cons]
      constructor
      · rw [← h1]; ring
      · omega

/-- The quotient `count / N * (sum / count)`, guarded as in `calculateExpectancy`, is
`sum / N`: when the count is 0 the sum is the empty sum. -/
theorem rate_times_average (l : List ℚ) (n : ℚ) :
    ((l.length : ℚ) / n) * (if (l.length : ℚ) > 0 then l.sum / (l.length : ℚ) else 0) =
      l.sum / n := by
  cases l with
  | nil => simp
  | cons x l =>
    have hpos : ((x :: l).length : ℚ) > 0 := by
      have : 0 < (x :: l).length := Nat.succ_pos _
      exact_mod_cast this
    rw [if_pos hpos, div_mul_div_comm, mul_comm ((x :: l).length : ℚ) (x :: l).sum,
      mul_div_mul_right _ _ hpos.ne.symm]

/-- C23: on a non-empty series without a return equal to 0, `calculateExpectancy` returns
what `calculateAverageTradeReturn` returns, the arithmetic mean `(Σ returns) / N`: the
loss rate `1 - winRate` is then the share of negative returns, and the two weighted
averages are `wins / N` and `losses / N`.  The arithmetic is exact. -/
theorem expectancy_eq_average_without_zero (returns : List ℚ) (hne : returns ≠ [])
    (hnz : ∀ r ∈ returns, r ≠ 0) :
    Metrics.calculateExpectancy returns = Metrics.calculateAverageTradeReturn returns ∧
    Metrics.calculateExpectancy returns = Except.ok (returns.sum / (returns.length : ℚ)) := by
  have havg : Metrics.calculateAverageTradeReturn returns =
      Except.ok (returns.sum / (returns.length : ℚ)) := by
    simp only [Metrics.calculateAverageTradeReturn, isEmpty_eq_false_of_ne_nil returns hne,
      accumulate_eq_sum, Bool.false_eq_true, if_false]
  have hexp : Metrics.calculateExpectancy returns =
      Except.ok (returns.sum / (returns.length : ℚ)) := by
    obtain ⟨hsum, hcount⟩ := split_by_sign returns hnz
    have hN : (returns.length : ℚ) ≠ 0 := by
      have : 0 < returns.length := List.length_pos.mpr hne
      exact_mod_cast this.ne.symm
    have hcountq : (((returns.filter (fun r => decide (0 < r))).length : ℚ)) +
        ((returns.filter (fun r => decide (r < 0))).length : ℚ) = (returns.length : ℚ) := by
      exact_mod_cast hcount
    have hloss : 1 - ((returns.filter (fun r => decide (0 < r))).length : ℚ) /
        (returns.length : ℚ) =
        ((returns.filter (fun r => decide (r < 0))).length : ℚ) / (returns.length : ℚ) := by
      rw [← hcountq] at hN ⊢
      field_simp
    simp only [Metrics.calculateExpectancy, isEmpty_eq_false_of_ne_nil returns hne,
      foldl_tallyStep, zero_add, Bool.false_eq_true, if_false, hloss, rate_times_average]
    rw [← hsum, add_div]
  exact ⟨hexp.trans havg.symm, hexp⟩

/-- Scenario C's series is non-empty and has no zero; its expectancy and its average
trade return are both 1/400. -/
theorem expectancy_eq_average_without_zero_witness :
    ([1 / 100, -2 / 100, 3 / 100, -1 / 100] : List ℚ) ≠ [] ∧
    (∀ r ∈ ([1 / 100, -2 / 100, 3 / 100, -1 / 100] : List ℚ), r ≠ 0) ∧
    Metrics.calculateAverageTradeReturn [1 / 100, -2 / 100, 3 / 100, -1 / 100] =
      Except.ok (1 / 400) ∧
    Metrics.calculateExpectancy [1 / 100, -2 / 100, 3 / 100, -1 / 100] =
      Metrics.calculateAverageTradeReturn [1 / 100, -2 / 100, 3 / 100, -1 / 100] :=
  ⟨by decide, by decide!, by decide!,
   (expectancy_eq_average_without_zero [1 / 100, -2 / 100, 3 / 100, -1 / 100]
      (by decide) (by decide!)).1⟩

theorem sizeModulus_pos : 0 < Metrics.sizeModulus := by
  unfold Metrics.sizeModulus; positivity

/-- With window 0 on a non-empty curve the first iteration reads `equityCurve[0]` and
then `equityCurve[0 + 0 - 1]`, the subscript wrapping to `sizeModulus - 1`. -/
theorem rollingReturns_window_zero (curve : List ℚ) (hsize : curve.length < Metrics.sizeModulus)
    (hne : curve ≠ []) :
    Metrics.calculateRollingReturns curve 0 =
      Metrics.Rolling.outOfBounds (Metrics.sizeModulus - 1) := by
  have hM := sizeModulus_pos
  have hw : Metrics.toSizeT 0 = 0 := by
    simp [Metrics.toSizeT]
  have hbound : (curve.length + (Metrics.sizeModulus - 0)) % Metrics.sizeModulus
      = curve.length := by
    rw [Nat.sub_zero, Nat.add_mod_right, Nat.mod_eq_of_lt hsize]
  have h0 : 0 < curve.length := List.length_pos.mpr hne
  have hj : (0 + 0 + (Metrics.sizeModulus - 1)) % Metrics.sizeModulus
      = Metrics.sizeModulus - 1 := by
    rw [Nat.zero_add, Nat.mod_eq_of_lt (Nat.sub_lt hM Nat.one_pos)]
  have hout : curve[Metrics.sizeModulus - 1]? = none :=
    List.getElem?_eq_none (by omega)
  simp only [Metrics.calculateRollingReturns, hw, Nat.not_lt_zero, if_false, hbound]
  rw [Metrics.rollingLoop, List.getElem?_eq_getElem h0]
  simp only [hj, hout]

/-- C22 (code evaluated at failing inputs): with `windowSize = 0` the guard
`size() < windowSize` lets the call through and the loop reads outside the vector: on
`[100, 120, 90, 150]`, and on every non-empty curve, the first iteration reads
`equityCurve[i + windowSize - 1]` at the wrapped subscript `sizeModulus - 1`; on the
empty curve it reads `equityCurve[0]`.  For `1 ≤ w ≤ n` every iteration stays inside the
vector and the call returns. -/
theorem rollingReturns_window_zero_reads_outside :
    Metrics.calculateRollingReturns [100, 120, 90, 150] 0 =
      Metrics.Rolling.outOfBounds (Metrics.sizeModulus - 1) ∧
    Metrics.calculateRollingReturns [] 0 = Metrics.Rolling.outOfBounds 0 ∧
    (∀ curve : List ℚ, curve.length < Metrics.sizeModulus → curve ≠ [] →
      Metrics.calculateRollingReturns curve 0 =
        Metrics.Rolling.outOfBounds (Metrics.sizeModulus - 1)) ∧
    (∀ (curve : List ℚ) (w : ℤ), curve.length < Metrics.sizeModulus → 1 ≤ w →
      w ≤ (curve.length : ℤ) →
      ∃ out, Metrics.calculateRollingReturns curve w = Metrics.Rolling.done out) := by
  refine ⟨by decide!, by decide!, fun curve hsize hne => rollingReturns_window_zero curve hsize hne,
    ?_⟩
  intro curve w hsize h1 h2
  have hw : Metrics.toSizeT w = w.toNat := toSizeT_of_nonneg w (by omega) (by omega)
  have hwn : w.toNat ≤ curve.length := by omega
  have hw1 : 1 ≤ w.toNat := by omega
  have hbound : (curve.length + (Metrics.sizeModulus - w.toNat)) % Metrics.sizeModulus
      = curve.length - w.toNat := by
    have e : curve.length + (Metrics.sizeModulus - w.toNat)
        = (curve.length - w.toNat) + Metrics.sizeModulus := by omega
    rw [e, Nat.add_mod_right, Nat.mod_eq_of_lt (by omega)]
  simp only [Metrics.calculateRollingReturns, hw, if_neg (not_lt.mpr hwn), hbound]
  rw [rollingLoop_in_bounds curve w.toNat hw1 hsize _ 0 [] (by omega)]
  exact ⟨_, rfl⟩

/-! ## Marks of the replay with `MovingAverageStrategy` -/

theorem toMarketData_lookup_SPY (d : TimeSeriesData) : d.toMarketData.lookup "SPY" = none := by
  rw [AList.lookup_eq_none, AList.mem_keys]
  have hk : d.toMarketData.keys = ["Close", "Low", "High", "Open"] := rfl
  rw [hk]
  decide

/-- A ledger holding nothing but `SPY` is marked at its cash by a bar's price map. -/
theorem updateNetWorth_of_holdsOnlySPY (p : Portfolio) (d : TimeSeriesData)
    (h : HoldsOnlySPY p) :
    (p.updateNetWorth d.toMarketData).state.equityCurve = p.equityCurve ++ [p.cash] := by
  have hcurve : (p.updateNetWorth d.toMarketData).state.equityCurve =
      p.equityCurve ++ [p.positions.entries.foldl (Portfolio.markStep d.toMarketData) p.cash] := by
    simp only [Portfolio.updateNetWorth]
    split_ifs <;> rfl
  rw [hcurve, markStep_foldl]
  have hzero : (p.positions.entries.map
      (fun e => (e.2 : ℚ) * (d.toMarketData.lookup e.1).getD 0)).sum = 0 := by
    apply List.sum_eq_zero
    intro x hx
    obtain ⟨e, he, rfl⟩ := List.mem_map.mp hx
    have hmem : e.1 ∈ p.positions := by
      rw [AList.mem_keys]
      exact List.mem_keys_of_mem he
    rw [h e.1 hmem, toMarketData_lookup_SPY]
    simp
  rw [hzero, add_zero]

theorem buy_holdsOnlySPY (p : Portfolio) (q : ℤ) (pr : ℚ) (h : HoldsOnlySPY p) :
    HoldsOnlySPY (p.buy "SPY" q pr).state := by
  simp only [Portfolio.buy]
  split_ifs
  · exact h
  · exact h
  · intro s hs
    rcases (AList.mem_insert _).mp hs with rfl | hs'
    · rfl
    · exact h s hs'

theorem sell_holdsOnlySPY (p : Portfolio) (q : ℤ) (pr : ℚ) (h : HoldsOnlySPY p) :
    HoldsOnlySPY (p.sell "SPY" q pr).state := by
  simp only [Portfolio.sell]
  split_ifs
  · exact h
  · cases hl : p.positions.lookup "SPY" with
    | none => exact h
    | some owned =>
      simp only []
      split_ifs
      · exact h
      · intro s hs
        exact h s (AList.mem_erase.mp hs).2
      · intro s hs
        rcases (AList.mem_insert _).mp hs with rfl | hs'
        · rfl
        · exact h s hs'

/-- On a bar with positive close `onData` throws nothing and keeps a ledger that holds
only `SPY` that way. -/
theorem onData_holdsOnlySPY (s : MovingAverageStrategy) (p : Portfolio) (ts : String)
    (d : TimeSeriesData) (hclose : 0 < d.close) (h : HoldsOnlySPY p) :
    (s.onData p ts d).thrown = none ∧ HoldsOnlySPY (s.onData p ts d).portfolio := by
  have b1 := (executeBuySignal_of_positive p ts d.close hclose).1
  have s1 := (executeSellSignal_of_positive p ts d.close hclose).1
  have hb : HoldsOnlySPY (MovingAverageStrategy.executeBuySignal p ts d.close).portfolio := by
    rw [executeBuySignal_portfolio]
    split_ifs
    · exact buy_holdsOnlySPY p 10 d.close h
    · exact h
  have hs : HoldsOnlySPY (MovingAverageStrategy.executeSellSignal p ts d.close).portfolio := by
    rw [executeSellSignal_portfolio]
    split_ifs
    · exact sell_holdsOnlySPY p 10 d.close h
    · exact h
  constructor
  · simp only [MovingAverageStrategy.onData]
    split_ifs <;> first | exact b1 | exact s1 | rfl
  · simp only [MovingAverageStrategy.onData]
    split_ifs <;> first | exact hb | exact hs | exact h

/-- One turn of the loop of `runBacktest` when `onData` throws nothing: the rest of the
series is replayed from the strategy `onData` leaves and the ledger as marked. -/
theorem replay_cons_completed {σ : Type} (S : Strategy σ) (ts : String) (d : TimeSeriesData)
    (rest : List (String × TimeSeriesData)) (s : σ) (p : Portfolio)
    (hr : (S.onData s p ts d).thrown = none) :
    (replay S ((ts, d) :: rest) s p).thrown =
      (replay S rest (S.onData s p ts d).self
        ((S.onData s p ts d).portfolio.updateNetWorth d.toMarketData).state).thrown ∧
    (replay S ((ts, d) :: rest) s p).strategy =
      (replay S rest (S.onData s p ts d).self
        ((S.onData s p ts d).portfolio.updateNetWorth d.toMarketData).state).strategy ∧
    (replay S ((ts, d) :: rest) s p).portfolio =
      (replay S rest (S.onData s p ts d).self
        ((S.onData s p ts d).portfolio.updateNetWorth d.toMarketData).state).portfolio := by
  have hu : ((S.onData s p ts d).portfolio.updateNetWorth d.toMarketData).thrown = none :=
    (updateNetWorth_frame _ _).1
  simp only [replay, hr, hu, and_self]

/-- The loop with `MovingAverageStrategy` on bars of positive close, from a ledger that
holds only `SPY`: no exception, the ledger still holds only `SPY`, and the equity curve
has only been appended to. -/
theorem replay_movingAverage (series : List (String × TimeSeriesData)) :
    (∀ b ∈ series, 0 < b.2.close) → ∀ (s : MovingAverageStrategy) (p : Portfolio),
      HoldsOnlySPY p →
      (replay MovingAverageStrategy.asStrategy series s p).thrown = none ∧
      HoldsOnlySPY (replay MovingAverageStrategy.asStrategy series s p).portfolio ∧
      ∃ X, (replay MovingAverageStrategy.asStrategy series s p).portfolio.equityCurve =
        p.equityCurve ++ X := by
  induction series with
  | nil => intro _ s p h; exact ⟨rfl, h, [], (List.append_nil _).symm⟩
  | cons b rest ih =>
    obtain ⟨ts, d⟩ := b
    intro hpos s p h
    obtain ⟨h1, h2⟩ := onData_holdsOnlySPY s p ts d (hpos (ts, d) (List.mem_cons_self _ _)) h
    have hmark := updateNetWorth_of_holdsOnlySPY (s.onData p ts d).portfolio d h2
    have hkeep := (movingAverage_keepsCurves.2.1 s p ts d).1
    have hk1 : HoldsOnlySPY
        ((s.onData p ts d).portfolio.updateNetWorth d.toMarketData).state := by
      intro x hx
      rw [(updateNetWorth_frame _ _).2.2.1] at hx
      exact h2 x hx
    obtain ⟨i1, i2, X, i3⟩ := ih (fun b hb => hpos b (List.mem_cons_of_mem _ hb))
      (s.onData p ts d).self _ hk1
    have e : (MovingAverageStrategy.asStrategy.onData s p ts d) = s.onData p ts d := rfl
    have c := replay_cons_completed MovingAverageStrategy.asStrategy ts d rest s p h1
    rw [e] at c
    obtain ⟨c1, _, c3⟩ := c
    rw [c1, c3]
    refine ⟨i1, i2, (s.onData p ts d).portfolio.cash :: X, ?_⟩
    have hkeep' : (s.onData p ts d).portfolio.equityCurve = p.equityCurve := hkeep
    rw [i3, hmark, hkeep', List.append_assoc]
    rfl

/-- Along the loop with `MovingAverageStrategy`, the entry appended for bar `k` is the
cash right after `onData` on that bar. -/
theorem replay_marks_cash (series : List (String × TimeSeriesData)) :
    (∀ b ∈ series, 0 < b.2.close) → ∀ (s : MovingAverageStrategy) (p : Portfolio),
      HoldsOnlySPY p → ∀ (k : ℕ) (ts : String) (d : TimeSeriesData),
      series[k]? = some (ts, d) →
      (replay MovingAverageStrategy.asStrategy series s p).portfolio.equityCurve.getD
          (p.equityCurve.length + k) 0 =
        ((replay MovingAverageStrategy.asStrategy (series.take k) s p).strategy.onData
          (replay MovingAverageStrategy.asStrategy (series.take k) s p).portfolio
          ts d).portfolio.cash := by
  induction series with
  | nil => intro _ s p _ k ts d hk; simp at hk
  | cons b rest ih =>
    obtain ⟨ts0, d0⟩ := b
    intro hpos s p h k ts d hk
    have hpos' : ∀ b ∈ rest, 0 < b.2.close := fun b hb => hpos b (List.mem_cons_of_mem _ hb)
    obtain ⟨h1, h2⟩ := onData_holdsOnlySPY s p ts0 d0 (hpos (ts0, d0) (List.mem_cons_self _ _)) h
    have hmark := updateNetWorth_of_holdsOnlySPY (s.onData p ts0 d0).portfolio d0 h2
    have hkeep : (s.onData p ts0 d0).portfolio.equityCurve = p.equityCurve :=
      (movingAverage_keepsCurves.2.1 s p ts0 d0).1
    rw [hkeep] at hmark
    have hk1 : HoldsOnlySPY
        ((s.onData p ts0 d0).portfolio.updateNetWorth d0.toMarketData).state := by
      intro x hx
      rw [(updateNetWorth_frame _ _).2.2.1] at hx
      exact h2 x hx
    have e : (MovingAverageStrategy.asStrategy.onData s p ts0 d0) = s.onData p ts0 d0 := rfl
    have c := replay_cons_completed MovingAverageStrategy.asStrategy ts0 d0 rest s p h1
    rw [e] at c
    obtain ⟨_, _, c3⟩ := c
    rw [c3]
    cases k with
    | zero =>
      simp only [List.getElem?_cons_zero, Option.some.injEq, Prod.mk.injEq] at hk
      obtain ⟨rfl, rfl⟩ := hk
      obtain ⟨_, _, X, hX⟩ := replay_movingAverage rest hpos' (s.onData p ts0 d0).self _ hk1
      rw [hX, hmark, List.append_assoc, Nat.add_zero, List.getD_append_right _ _ _ _ (le_refl _),
        Nat.sub_self]
      rfl
    | succ k =>
      simp only [List.getElem?_cons_succ] at hk
      have := ih hpos' (s.onData p ts0 d0).self _ hk1 k ts d hk
      rw [hmark, List.length_append, List.length_singleton] at this
      have hidx : p.equityCurve.length + (k + 1) = p.equityCurve.length + 1 + k := by omega
      rw [hidx, this]
      have t := replay_cons_completed MovingAverageStrategy.asStrategy ts0 d0
        (rest.take k) s p h1
      rw [e] at t
      obtain ⟨_, t2, t3⟩ := t
      rw [List.take_succ_cons, t2, t3]

/-- C21: for bars with positive closes replayed by `runBacktest` with a
`MovingAverageStrategy` on a ledger that starts with no positions, the run appends one
equity-curve entry per bar, and the entry for bar `k` equals the cash of the ledger right
after `onData` on that bar (called on the state the first `k` bars leave): the ledger
only ever holds `SPY`, which is no key of the price map `toMarketData` passes to
`updateNetWorth`, so the holdings add nothing to the mark. -/
theorem marks_ignore_spy_holdings (series : List (String × TimeSeriesData))
    (s : MovingAverageStrategy) (p : Portfolio) (hpos : ∀ b ∈ series, 0 < b.2.close)
    (hflat : p.positions = ∅) :
    (runBacktest MovingAverageStrategy.asStrategy series s p).portfolio.equityCurve.length =
      p.equityCurve.length + series.length ∧
    (∀ (k : ℕ) (ts : String) (d : TimeSeriesData), series[k]? = some (ts, d) →
      (runBacktest MovingAverageStrategy.asStrategy series s p).portfolio.equityCurve.getD
          (p.equityCurve.length + k) 0 =
        ((replay MovingAverageStrategy.asStrategy (series.take k) s p).strategy.onData
          (replay MovingAverageStrategy.asStrategy (series.take k) s p).portfolio
          ts d).portfolio.cash) ∧
    (∀ d : TimeSeriesData, d.toMarketData.lookup "SPY" = none) ∧
    HoldsOnlySPY (runBacktest MovingAverageStrategy.asStrategy series s p).portfolio := by
  have h : HoldsOnlySPY p := by
    intro x hx
    rw [hflat] at hx
    exact absurd hx (AList.not_mem_empty x)
  obtain ⟨l1, l2, _⟩ := replay_movingAverage series hpos s p h
  have hport : (runBacktest MovingAverageStrategy.asStrategy series s p).portfolio =
      (replay MovingAverageStrategy.asStrategy series s p).portfolio := by
    have e0 : MovingAverageStrategy.asStrategy.onStart s p = ⟨none, [LogLine.starting], s, p⟩ :=
      rfl
    simp only [runBacktest, e0, l1]
    rfl
  rw [hport]
  refine ⟨?_, ?_, toMarketData_lookup_SPY, l2⟩
  · exact (replay_completed MovingAverageStrategy.asStrategy movingAverage_keepsCurves
      series s p l1).2.1
  · intro k ts d hk
    exact replay_marks_cash series hpos s p h k ts d hk

/-- Scenario D through the engine on the ledger funded with 100000: the curve is
`[100000, 100000, 100000, 99880, 99880]`, the cash after each bar, although 10 shares of
`SPY` are held from the fourth bar on; the fourth entry is the cash after `onData` on the
bar of close 12. -/
theorem marks_ignore_spy_holdings_witness :
    (∀ b ∈ seriesD, 0 < b.2.close) ∧ ledgerA.positions = ∅ ∧
    (runBacktest MovingAverageStrategy.asStrategy seriesD strategyD ledgerA).portfolio.equityCurve =
      [100000, 100000, 100000, 99880, 99880] ∧
    (runBacktest MovingAverageStrategy.asStrategy seriesD strategyD ledgerA).portfolio.getPosition
      "SPY" = 10 ∧
    (runBacktest MovingAverageStrategy.asStrategy seriesD strategyD ledgerA).portfolio.equityCurve.getD
        (ledgerA.equityCurve.length + 3) 0 =
      ((replay MovingAverageStrategy.asStrategy (seriesD.take 3) strategyD ledgerA).strategy.onData
        (replay MovingAverageStrategy.asStrategy (seriesD.take 3) strategyD ledgerA).portfolio
        "t4" (flatBar 12)).portfolio.cash :=
  ⟨by decide!, rfl, by decide!, by decide!,
   (marks_ignore_spy_holdings seriesD strategyD ledgerA (by decide!) rfl).2.1 3 "t4"
     (flatBar 12) rfl⟩

end Backtester
